import Mathlib

/-!
Verification development for the `zipato-extension` repository
(`src/settings.py` and `src/debug.py`).

The Python code is shallowly embedded over `Str := List Char`:

* Python strings become `Str`; lines of a text file become `List Str`
  (each element one line, without its trailing newline).
* Python values that can appear as top-level YAML scalars become `Scalar`
  (booleans, arbitrary-precision integers, strings).  This is the data
  model of the spec (§3): top-level scalar values only.  PyYAML floats,
  nulls and nested collections are outside the modelled domain.
* A Python function that can raise becomes an `Option`-valued function
  (`none` = the call raises).
* The PyYAML scalar serializer / resolver is modelled only on this
  scalar domain (`dump_scalar` / `parse_value_text`): booleans render as
  `true` / `false`, integers in canonical decimal, strings plainly
  unless the plain form would re-resolve to a non-string (then they are
  single-quoted).  The quoting test `needs_quote` is a conservative
  approximation of the YAML 1.1 resolver: it quotes everything whose
  plain form is empty, a YAML boolean/null word, int-like or float-like,
  starts with a quote, or has leading/trailing whitespace.
* Note: `settings.py` line 188 contains a stray token `ya` (a syntax
  slip inside a parenthesised expression); the embedding follows the
  evident intent of that line (`program_path = os.path.dirname(...)`),
  which does not interact with any of the modelled behaviour.
-/

namespace Zipato

/-- One Python string, as a list of characters. -/
abbrev Str := List Char

/-- Strip trailing Python whitespace (models the tail half of `str.strip()`). -/
def pyTrimEnd : Str → Str
  | [] => []
  | c :: rest =>
    match pyTrimEnd rest with
    | [] => if c.isWhitespace then [] else [c]
    | r => c :: r

/-- Models Python `str.strip()`: drop leading and trailing whitespace. -/
def pyTrim (l : Str) : Str :=
  pyTrimEnd (l.dropWhile Char.isWhitespace)

/-- Models Python `str.lower()` (ASCII letters suffice for this code base). -/
def lowerStr (l : Str) : Str :=
  l.map Char.toLower

/-- Fuelled helper for `natToDigits` (structural recursion so that proofs
can evaluate it; any fuel above the number is enough). -/
def natToDigitsF : Nat → Nat → List Char
  | 0, _ => []
  | fuel + 1, n =>
    if n < 10 then [Nat.digitChar n]
    else natToDigitsF fuel (n / 10) ++ [Nat.digitChar (n % 10)]

/-- Decimal digits of a natural number, most significant first
(the digits Python `str(int)` prints). -/
def natToDigits (n : Nat) : List Char :=
  natToDigitsF (n + 1) n

theorem natToDigitsF_irrel (f1 : Nat) : ∀ (f2 n : Nat), n < f1 → n < f2 →
    natToDigitsF f1 n = natToDigitsF f2 n := by
  induction f1 with
  | zero => omega
  | succ f ih =>
    intro f2 n h1 h2
    cases f2 with
    | zero => omega
    | succ g =>
      simp only [natToDigitsF]
      by_cases h10 : n < 10
      · rw [if_pos h10, if_pos h10]
      · rw [if_neg h10, if_neg h10, ih g (n / 10) (by omega) (by omega)]

theorem natToDigits_eq (n : Nat) :
    natToDigits n =
      if n < 10 then [Nat.digitChar n]
      else natToDigits (n / 10) ++ [Nat.digitChar (n % 10)] := by
  unfold natToDigits
  rw [natToDigitsF]
  by_cases h10 : n < 10
  · rw [if_pos h10, if_pos h10]
  · rw [if_neg h10, if_neg h10,
        natToDigitsF_irrel n (n / 10 + 1) (n / 10) (by omega) (by omega)]

/-- Numeric value of a digit character. -/
def digitVal (c : Char) : Nat := c.toNat - 48

/-- Fold a digit list (most significant first) back to a natural number. -/
def digitsToNat (l : List Char) : Nat :=
  l.foldl (fun a c => a * 10 + digitVal c) 0

/-- Models Python `str(int)`: canonical decimal rendering with `-` sign. -/
def intToStr (n : Int) : Str :=
  if n < 0 then '-' :: natToDigits n.natAbs else natToDigits n.natAbs

/-- Parse an optionally `-`-signed nonempty all-digit string (helper for the
canonical-integer test of the YAML scalar resolver). -/
def strictIntParse : Str → Option Int
  | [] => none
  | c :: rest =>
    if c = '-' then
      if rest ≠ [] ∧ rest.all Char.isDigit then some (-(digitsToNat rest : Int)) else none
    else if (c :: rest).all Char.isDigit then some ((digitsToNat (c :: rest) : Int))
    else none

/-- An integer text the modelled YAML loader resolves as an integer: exactly
the canonical outputs of `intToStr` (decimal, no leading zeros, no `+`). -/
def canonInt (t : Str) : Option Int :=
  match strictIntParse t with
  | some n => if intToStr n = t then some n else none
  | none => none

/-- Models Python `int(str)`: surrounding whitespace allowed, one optional
`+`/`-` sign, then a nonempty run of digits.  (CPython additionally accepts
underscore digit grouping and non-ASCII digits; those are outside the
modelled string domain.) -/
def pyIntParse (t : Str) : Option Int :=
  match pyTrim t with
  | [] => none
  | c :: rest =>
    if c = '-' then
      if rest ≠ [] ∧ rest.all Char.isDigit then some (-(digitsToNat rest : Int)) else none
    else if c = '+' then
      if rest ≠ [] ∧ rest.all Char.isDigit then some ((digitsToNat rest : Int)) else none
    else if (c :: rest).all Char.isDigit then some ((digitsToNat (c :: rest) : Int))
    else none

/-- A top-level YAML scalar value of the settings file, after parsing
(the value set of the spec's data model §3). -/
inductive Scalar where
  | bool (b : Bool)
  | int (n : Int)
  | str (t : Str)
deriving DecidableEq, Repr

/-- Models Python `str(value)` on the scalar domain. -/
def strOf : Scalar → Str
  | .bool true => "True".toList
  | .bool false => "False".toList
  | .int n => intToStr n
  | .str t => t

/-- Models Python `int(value)` on the scalar domain (`int(True) = 1`,
`int(False) = 0`, `int` is the identity, strings via `pyIntParse`). -/
def pyInt : Scalar → Option Int
  | .bool true => some 1
  | .bool false => some 0
  | .int n => some n
  | .str t => pyIntParse t

/-- Python `len`/indexing succeed only on strings here; other scalars raise
`TypeError` (models using a scalar where `_format_path` expects a string). -/
def asStr : Scalar → Option Str
  | .str t => some t
  | _ => none

/-- Translation of `Settings.__PATH_WITH_SLASH_PARAMETERS`
(settings.py lines 24-26). -/
def PATH_WITH_SLASH_PARAMETERS : List Str :=
  ["WEB_API_PATH".toList, "WEB_GUI_PATH".toList, "WAKEONLAN_PATH".toList,
   "PING_PATH".toList, "SSH_PATH".toList]

/-- Translation of `Settings.__PATH_WITHOUT_SLASH_PARAMETERS`
(settings.py lines 29-30). -/
def PATH_WITHOUT_SLASH_PARAMETERS : List Str :=
  ["MESSAGE_LOG".toList, "ERROR_LOG".toList, "SSH_KEY_FILE".toList]

/-- Translation of `Settings._format_path` (settings.py lines 72-89):
empty stays empty; with `slash` a missing trailing `/` is appended;
without `slash` one trailing `/` is removed (`path[:-1]`). -/
def format_path (path : Str) (slash : Bool) : Str :=
  if path.length = 0 then path
  else if slash ∧ path.getLast? ≠ some '/' then path ++ ['/']
  else if ¬slash ∧ path.getLast? = some '/' then path.dropLast
  else path

/-- Translation of `Settings._format_value` (settings.py lines 91-113):
path-class keys are path-formatted (raising `TypeError`, i.e. `none`, on
non-string scalars); otherwise `yes`/`true` (case-insensitive) maps to
`True`, `no`/`false` to `False`, then `int(value)` is tried, else the
value is returned unchanged. -/
def format_value (param : Str) (value : Scalar) : Option Scalar :=
  if param ∈ PATH_WITH_SLASH_PARAMETERS then
    (asStr value).map (fun t => .str (format_path t true))
  else if param ∈ PATH_WITHOUT_SLASH_PARAMETERS then
    (asStr value).map (fun t => .str (format_path t false))
  else if lowerStr (strOf value) = "yes".toList ∨ lowerStr (strOf value) = "true".toList then
    some (.bool true)
  else if lowerStr (strOf value) = "no".toList ∨ lowerStr (strOf value) = "false".toList then
    some (.bool false)
  else
    match pyInt value with
    | some n => some (.int n)
    | none => some value

/-! Arithmetic/character facts about the modelled Python primitives. -/

theorem toLower_of_lt_65 (c : Char) (h : c.val.toNat < 65) : c.toLower = c := by
  unfold Char.toLower
  rw [if_neg]
  simp only [Char.toNat]
  omega

theorem digit_toLower (c : Char) (h : c.isDigit = true) : c.toLower = c := by
  apply toLower_of_lt_65
  simp only [Char.isDigit, Bool.and_eq_true, decide_eq_true_eq] at h
  have h2 := h.2
  have := UInt32.toNat_le_of_le (n := c.val) (m := 57) (by decide) h2
  omega

theorem digitChar_isDigit (m : Nat) (h : m < 10) : (Nat.digitChar m).isDigit = true := by
  interval_cases m <;> decide

theorem natToDigits_all_digit (n : Nat) : ∀ c ∈ natToDigits n, c.isDigit = true := by
  induction n using Nat.strong_induction_on with
  | _ n ih =>
    intro c hc
    rw [natToDigits_eq] at hc
    by_cases h10 : n < 10
    · rw [if_pos h10] at hc
      simp at hc
      subst hc
      exact digitChar_isDigit n h10
    · rw [if_neg h10] at hc
      simp at hc
      rcases hc with hc | hc
      · exact ih (n / 10) (Nat.div_lt_self (by omega) (by omega)) c hc
      · subst hc
        exact digitChar_isDigit _ (Nat.mod_lt _ (by omega))

theorem natToDigits_ne_nil (n : Nat) : natToDigits n ≠ [] := by
  rw [natToDigits_eq]
  split <;> simp

theorem digitVal_digitChar (m : Nat) (h : m < 10) : digitVal (Nat.digitChar m) = m := by
  interval_cases m <;> decide

theorem digitsToNat_append (l : List Char) (c : Char) :
    digitsToNat (l ++ [c]) = digitsToNat l * 10 + digitVal c := by
  simp [digitsToNat]

theorem digitsToNat_natToDigits (n : Nat) : digitsToNat (natToDigits n) = n := by
  induction n using Nat.strong_induction_on with
  | _ n ih =>
    rw [natToDigits_eq]
    by_cases h10 : n < 10
    · rw [if_pos h10]
      simp [digitsToNat]
      exact digitVal_digitChar n h10
    · rw [if_neg h10, digitsToNat_append,
          ih (n / 10) (Nat.div_lt_self (by omega) (by omega)),
          digitVal_digitChar _ (Nat.mod_lt _ (by omega))]
      omega

theorem intToStr_chars (n : Int) : ∀ c ∈ intToStr n, c = '-' ∨ c.isDigit = true := by
  intro c hc
  unfold intToStr at hc
  split at hc
  · simp at hc
    rcases hc with hc | hc
    · left; exact hc
    · right; exact natToDigits_all_digit _ c hc
  · right; exact natToDigits_all_digit _ c hc

theorem strictIntParse_intToStr (n : Int) : strictIntParse (intToStr n) = some n := by
  unfold intToStr
  split
  case isTrue h =>
    rw [strictIntParse]
    rw [if_pos rfl, if_pos ⟨natToDigits_ne_nil _, by simpa using natToDigits_all_digit n.natAbs⟩]
    rw [digitsToNat_natToDigits]
    congr 1
    omega
  case isFalse h =>
    obtain ⟨c, cs, hcons⟩ : ∃ c cs, natToDigits n.natAbs = c :: cs := by
      cases hnc : natToDigits n.natAbs with
      | nil => exact absurd hnc (natToDigits_ne_nil _)
      | cons c cs => exact ⟨c, cs, rfl⟩
    rw [hcons, strictIntParse]
    have hcd : c.isDigit = true := natToDigits_all_digit _ c (by rw [hcons]; simp)
    rw [if_neg (by intro hcontra; rw [hcontra] at hcd; exact absurd hcd (by decide))]
    rw [if_pos (by rw [← hcons]; simpa using natToDigits_all_digit n.natAbs)]
    rw [← hcons, digitsToNat_natToDigits]
    congr 1
    omega

theorem canonInt_intToStr (n : Int) : canonInt (intToStr n) = some n := by
  unfold canonInt
  rw [strictIntParse_intToStr]
  simp

theorem pyTrimEnd_eq_self (l : Str) (h : ∀ c ∈ l, ¬ c.isWhitespace) : pyTrimEnd l = l := by
  induction l with
  | nil => rfl
  | cons c rest ih =>
    rw [pyTrimEnd]
    rw [ih (fun x hx => h x (List.mem_cons_of_mem _ hx))]
    cases rest with
    | nil => simp [h c (List.mem_cons_self _ _)]
    | cons d ds => rfl

theorem pyTrim_eq_self (l : Str) (h : ∀ c ∈ l, ¬ c.isWhitespace) : pyTrim l = l := by
  unfold pyTrim
  rw [List.dropWhile_eq_self_iff.mpr, pyTrimEnd_eq_self l h]
  cases l with
  | nil => simp
  | cons c rest => simpa using h c (List.mem_cons_self _ _)

theorem digit_not_ws (c : Char) (h : c.isDigit = true) : ¬ c.isWhitespace = true := by
  simp only [Char.isDigit, Bool.and_eq_true, decide_eq_true_eq] at h
  have h1 := h.1
  simp only [Char.isWhitespace]
  intro hw
  simp only [Bool.or_eq_true, decide_eq_true_eq] at hw
  rcases hw with ((hw | hw) | hw) | hw <;> (subst hw; revert h1; decide)

theorem intToStr_no_ws (n : Int) : ∀ c ∈ intToStr n, ¬ c.isWhitespace := by
  intro c hc
  rcases intToStr_chars n c hc with h | h
  · subst h; decide
  · exact digit_not_ws c h

theorem intToStr_cases (n : Int) :
    (n < 0 ∧ intToStr n = '-' :: natToDigits n.natAbs) ∨
    (0 ≤ n ∧ intToStr n = natToDigits n.natAbs) := by
  unfold intToStr
  split
  case isTrue h => exact Or.inl ⟨h, rfl⟩
  case isFalse h => exact Or.inr ⟨by omega, rfl⟩

theorem map_toLower_eq_self (l : Str) (h : ∀ c ∈ l, c = '-' ∨ c.isDigit = true) :
    l.map Char.toLower = l := by
  induction l with
  | nil => rfl
  | cons c rest ih =>
    simp only [List.map_cons]
    rw [ih (fun x hx => h x (List.mem_cons_of_mem _ hx))]
    rcases h c (List.mem_cons_self _ _) with hc | hc
    · subst hc
      have hm : Char.toLower '-' = '-' := by decide
      rw [hm]
    · rw [digit_toLower c hc]

theorem lowerStr_intToStr (n : Int) : lowerStr (intToStr n) = intToStr n :=
  map_toLower_eq_self _ (intToStr_chars n)



theorem pyIntParse_intToStr (n : Int) : pyIntParse (intToStr n) = some n := by
  unfold pyIntParse
  rw [pyTrim_eq_self _ (intToStr_no_ws n)]
  rcases intToStr_cases n with ⟨hneg, heq⟩ | ⟨hpos, heq⟩
  · rw [heq]
    simp only []
    rw [if_pos trivial,
        if_pos ⟨natToDigits_ne_nil _, by simpa using natToDigits_all_digit n.natAbs⟩,
        digitsToNat_natToDigits]
    congr 1
    omega
  · obtain ⟨c, cs, hcons⟩ : ∃ c cs, natToDigits n.natAbs = c :: cs := by
      cases hnc : natToDigits n.natAbs with
      | nil => exact absurd hnc (natToDigits_ne_nil _)
      | cons c cs => exact ⟨c, cs, rfl⟩
    have hcd : c.isDigit = true := natToDigits_all_digit _ c (by rw [hcons]; simp)
    rw [heq, hcons]
    simp only []
    rw [if_neg (by intro hcontra; rw [hcontra] at hcd; exact absurd hcd (by decide)),
        if_neg (by intro hcontra; rw [hcontra] at hcd; exact absurd hcd (by decide)),
        if_pos (by rw [← hcons]; simpa using natToDigits_all_digit n.natAbs),
        ← hcons, digitsToNat_natToDigits]
    congr 1
    omega

theorem intToStr_head_kind (n : Int) (c : Char) (cs : List Char)
    (h : intToStr n = c :: cs) : c = '-' ∨ c.isDigit = true :=
  intToStr_chars n c (by rw [h]; simp)

theorem lowerInt_ne_yes (n : Int) : lowerStr (intToStr n) ≠ "yes".toList := by
  rw [lowerStr_intToStr]
  intro h
  rcases intToStr_head_kind n 'y' _ h with hc | hc <;> revert hc <;> decide

theorem lowerInt_ne_true (n : Int) : lowerStr (intToStr n) ≠ "true".toList := by
  rw [lowerStr_intToStr]
  intro h
  rcases intToStr_head_kind n 't' _ h with hc | hc <;> revert hc <;> decide

theorem lowerInt_ne_no (n : Int) : lowerStr (intToStr n) ≠ "no".toList := by
  rw [lowerStr_intToStr]
  intro h
  rcases intToStr_head_kind n 'n' _ h with hc | hc <;> revert hc <;> decide

theorem lowerInt_ne_false (n : Int) : lowerStr (intToStr n) ≠ "false".toList := by
  rw [lowerStr_intToStr]
  intro h
  rcases intToStr_head_kind n 'f' _ h with hc | hc <;> revert hc <;> decide

theorem format_path_nil (slash : Bool) : format_path [] slash = [] := rfl

theorem format_path_true_spec (t : Str) :
    format_path t true = [] ∨ (format_path t true).getLast? = some '/' := by
  by_cases h1 : t.length = 0
  · left
    unfold format_path
    rw [if_pos h1]
    exact List.length_eq_zero.mp h1
  · right
    by_cases h2 : t.getLast? = some '/'
    · unfold format_path
      rw [if_neg h1, if_neg (by simp [h2]), if_neg (by simp)]
      exact h2
    · unfold format_path
      rw [if_neg h1, if_pos ⟨rfl, h2⟩]
      exact List.getLast?_concat t

theorem format_path_true_of_getLast (r : Str) (h : r.getLast? = some '/') :
    format_path r true = r := by
  have hne : ¬ r.length = 0 := by
    intro hc
    rw [List.length_eq_zero.mp hc] at h
    simp at h
  unfold format_path
  rw [if_neg hne, if_neg (by simp [h]), if_neg (by simp)]

theorem format_path_true_idem (t : Str) :
    format_path (format_path t true) true = format_path t true := by
  rcases format_path_true_spec t with h | h
  · rw [h]
    rfl
  · exact format_path_true_of_getLast _ h

theorem format_path_false_eq_self (t : Str) (h : t.getLast? ≠ some '/') :
    format_path t false = t := by
  by_cases h1 : t.length = 0
  · unfold format_path
    rw [if_pos h1]
  · unfold format_path
    rw [if_neg h1, if_neg (by simp), if_neg (fun hc => h hc.2)]

theorem format_path_false_getLast (t : Str)
    (h : ¬(t.getLast? = some '/' ∧ t.dropLast.getLast? = some '/')) :
    (format_path t false).getLast? ≠ some '/' := by
  by_cases hl : t.getLast? = some '/'
  · have h2 : t.dropLast.getLast? ≠ some '/' := fun hh => h ⟨hl, hh⟩
    have hne : ¬ t.length = 0 := by
      intro hc
      rw [List.length_eq_zero.mp hc] at hl
      simp at hl
    unfold format_path
    rw [if_neg hne, if_neg (by simp), if_pos ⟨by simp, hl⟩]
    exact h2
  · rw [format_path_false_eq_self t hl]
    exact hl

theorem without_not_with (k : Str) (h : k ∈ PATH_WITHOUT_SLASH_PARAMETERS) :
    k ∉ PATH_WITH_SLASH_PARAMETERS := by
  simp only [PATH_WITHOUT_SLASH_PARAMETERS, List.mem_cons, List.not_mem_nil, or_false] at h
  rcases h with h | h | h <;> subst h <;> decide

theorem format_value_with (k : Str) (h : k ∈ PATH_WITH_SLASH_PARAMETERS) (v : Scalar) :
    format_value k v = (asStr v).map (fun t => Scalar.str (format_path t true)) := by
  unfold format_value
  rw [if_pos h]

theorem format_value_without (k : Str) (h1 : k ∉ PATH_WITH_SLASH_PARAMETERS)
    (h2 : k ∈ PATH_WITHOUT_SLASH_PARAMETERS) (v : Scalar) :
    format_value k v = (asStr v).map (fun t => Scalar.str (format_path t false)) := by
  unfold format_value
  rw [if_neg h1, if_pos h2]

theorem format_value_plain (k : Str) (h1 : k ∉ PATH_WITH_SLASH_PARAMETERS)
    (h2 : k ∉ PATH_WITHOUT_SLASH_PARAMETERS) (v : Scalar) :
    format_value k v =
      if lowerStr (strOf v) = "yes".toList ∨ lowerStr (strOf v) = "true".toList then
        some (.bool true)
      else if lowerStr (strOf v) = "no".toList ∨ lowerStr (strOf v) = "false".toList then
        some (.bool false)
      else match pyInt v with
           | some n => some (.int n)
           | none => some v := by
  unfold format_value
  rw [if_neg h1, if_neg h2]

theorem format_value_fix (k : Str) (v w : Scalar) (hw : format_value k v = some w)
    (hns : k ∈ PATH_WITHOUT_SLASH_PARAMETERS → ∀ t, w = .str t → t.getLast? ≠ some '/') :
    format_value k w = some w := by
  by_cases h1 : k ∈ PATH_WITH_SLASH_PARAMETERS
  · rw [format_value_with k h1] at hw ⊢
    cases v with
    | str t =>
      simp only [asStr, Option.map_some'] at hw
      injection hw with hw
      subst hw
      simp only [asStr, Option.map_some', Option.some.injEq, Scalar.str.injEq]
      exact format_path_true_idem t
    | bool b => simp [asStr] at hw
    | int n => simp [asStr] at hw
  · by_cases h2 : k ∈ PATH_WITHOUT_SLASH_PARAMETERS
    · rw [format_value_without k h1 h2] at hw ⊢
      cases v with
      | str t =>
        simp only [asStr, Option.map_some'] at hw
        injection hw with hw
        subst hw
        simp only [asStr, Option.map_some', Option.some.injEq, Scalar.str.injEq]
        exact format_path_false_eq_self _ (hns h2 _ rfl)
      | bool b => simp [asStr] at hw
      | int n => simp [asStr] at hw
    · rw [format_value_plain k h1 h2] at hw ⊢
      split_ifs at hw with hb1 hb2
      · injection hw with hw
        subst hw
        rw [if_pos (Or.inr (by decide))]
      · injection hw with hw
        subst hw
        rw [if_neg (by decide), if_pos (Or.inr (by decide))]
      · cases hp : pyInt v with
        | some n =>
          rw [hp] at hw
          injection hw with hw
          subst hw
          rw [if_neg (by
                intro hc
                rcases hc with hc | hc
                · exact lowerInt_ne_yes n hc
                · exact lowerInt_ne_true n hc),
              if_neg (by
                intro hc
                rcases hc with hc | hc
                · exact lowerInt_ne_no n hc
                · exact lowerInt_ne_false n hc)]
          rfl
        | none =>
          rw [hp] at hw
          injection hw with hw
          subst hw
          rw [if_neg hb1, if_neg hb2, hp]

/-! Claim C5, C6, C7: the value formatter. -/

/-- C5: `_format_value` applies its rules in the fixed order: always-slash
path set first, then never-slash path set, then `yes`/`true`, then
`no`/`false`, then integer parse, else the value unchanged; in particular
for a key in either path set the result is always the path-formatted value,
even if the raw value looks boolean or numeric. -/
theorem c5_value_formatter_rule_order (k : Str) (v : Scalar) :
    (k ∈ PATH_WITH_SLASH_PARAMETERS →
       format_value k v = (asStr v).map (fun t => Scalar.str (format_path t true))) ∧
    (k ∉ PATH_WITH_SLASH_PARAMETERS → k ∈ PATH_WITHOUT_SLASH_PARAMETERS →
       format_value k v = (asStr v).map (fun t => Scalar.str (format_path t false))) ∧
    (k ∉ PATH_WITH_SLASH_PARAMETERS → k ∉ PATH_WITHOUT_SLASH_PARAMETERS →
       format_value k v =
         if lowerStr (strOf v) = "yes".toList ∨ lowerStr (strOf v) = "true".toList then
           some (.bool true)
         else if lowerStr (strOf v) = "no".toList ∨ lowerStr (strOf v) = "false".toList then
           some (.bool false)
         else match pyInt v with
              | some n => some (.int n)
              | none => some v) :=
  ⟨fun h1 => format_value_with k h1 v,
   fun h1 h2 => format_value_without k h1 h2 v,
   fun h1 h2 => format_value_plain k h1 h2 v⟩

/-- Witness for C5: the always-slash key `WEB_API_PATH` with the
boolean-looking raw value `"yes"` is path-formatted to `"yes/"`, while the
same value under a non-path key becomes boolean `True`. -/
theorem c5_witness :
    format_value "WEB_API_PATH".toList (.str "yes".toList) = some (.str "yes/".toList) ∧
    format_value "PARAM_X".toList (.str "yes".toList) = some (.bool true) := by
  constructor
  · rw [(c5_value_formatter_rule_order "WEB_API_PATH".toList (.str "yes".toList)).1 (by decide)]
    decide
  · rw [(c5_value_formatter_rule_order "PARAM_X".toList
        (.str "yes".toList)).2.2 (by decide) (by decide)]
    decide

/-- C6 counterexample: `MESSAGE_LOG` is in the never-slash set, yet
`_format_value` on `"a//"` returns `"a/"`, which still ends with the
separator (only one trailing slash is stripped). -/
theorem c6_counterexample :
    "MESSAGE_LOG".toList ∈ PATH_WITHOUT_SLASH_PARAMETERS ∧
    format_value "MESSAGE_LOG".toList (.str "a//".toList) = some (.str "a/".toList) ∧
    ("a/".toList).getLast? = some '/' := by
  refine ⟨by decide, ?_, by decide⟩
  decide

/-- C6 (amended): for always-slash keys the formatted value is empty or ends
with the separator, and empty input stays empty; for never-slash keys the
formatted value does not end with the separator provided the input does not
end with two separators (the code strips only one trailing separator), and
empty input stays empty. -/
theorem c6_path_format_postcondition (k : Str) (t : Str) :
    (k ∈ PATH_WITH_SLASH_PARAMETERS →
       format_value k (.str t) = some (.str (format_path t true)) ∧
       (format_path t true = [] ∨ (format_path t true).getLast? = some '/') ∧
       (t = [] → format_path t true = [])) ∧
    (k ∈ PATH_WITHOUT_SLASH_PARAMETERS →
       format_value k (.str t) = some (.str (format_path t false)) ∧
       (¬(t.getLast? = some '/' ∧ t.dropLast.getLast? = some '/') →
          (format_path t false).getLast? ≠ some '/') ∧
       (t = [] → format_path t false = [])) := by
  constructor
  · intro h
    refine ⟨?_, format_path_true_spec t, ?_⟩
    · rw [format_value_with k h]
      rfl
    · intro ht
      subst ht
      rfl
  · intro h
    refine ⟨?_, format_path_false_getLast t, ?_⟩
    · rw [format_value_without k (without_not_with k h) h]
      rfl
    · intro ht
      subst ht
      rfl

/-- Witness for C6: instantiated at `WEB_API_PATH`/`MESSAGE_LOG` with the
value `"logs"`. -/
theorem c6_witness :
    (format_value "WEB_API_PATH".toList (.str "logs".toList) =
       some (.str (format_path "logs".toList true)) ∧
     (format_path "logs".toList true = [] ∨
       (format_path "logs".toList true).getLast? = some '/') ∧
     ("logs".toList = [] → format_path "logs".toList true = [])) ∧
    (format_value "MESSAGE_LOG".toList (.str "logs".toList) =
       some (.str (format_path "logs".toList false)) ∧
     (¬(("logs".toList).getLast? = some '/' ∧
          ("logs".toList).dropLast.getLast? = some '/') →
        (format_path "logs".toList false).getLast? ≠ some '/') ∧
     ("logs".toList = [] → format_path "logs".toList false = [])) :=
  ⟨(c6_path_format_postcondition "WEB_API_PATH".toList "logs".toList).1 (by decide),
   (c6_path_format_postcondition "MESSAGE_LOG".toList "logs".toList).2 (by decide)⟩

/-- C7 counterexample: `_format_value` is not idempotent: for the
never-slash key `MESSAGE_LOG` and value `"a//"`, one application gives
`"a/"` and a second application gives `"a"`. -/
theorem c7_counterexample :
    format_value "MESSAGE_LOG".toList (.str "a//".toList) = some (.str "a/".toList) ∧
    (format_value "MESSAGE_LOG".toList (.str "a//".toList)).bind
        (format_value "MESSAGE_LOG".toList) = some (.str "a".toList) ∧
    Scalar.str "a".toList ≠ Scalar.str "a/".toList := by
  refine ⟨by decide, by decide, by decide⟩

/-- C7 (amended): `_format_value` is idempotent for every key and value,
except that for a never-slash key the (string) value must not end with two
separators; crashes are propagated through `Option.bind`. -/
theorem c7_format_value_idempotent (k : Str) (v : Scalar)
    (h : k ∈ PATH_WITHOUT_SLASH_PARAMETERS → ∀ t, v = .str t →
          ¬(t.getLast? = some '/' ∧ t.dropLast.getLast? = some '/')) :
    (format_value k v).bind (format_value k) = format_value k v := by
  cases hw : format_value k v with
  | none => rfl
  | some w =>
    show format_value k w = some w
    apply format_value_fix k v w hw
    intro h2 t' hwt
    have h1 : k ∉ PATH_WITH_SLASH_PARAMETERS := without_not_with k h2
    rw [format_value_without k h1 h2] at hw
    cases v with
    | str t =>
      simp only [asStr, Option.map_some'] at hw
      injection hw with hw
      rw [hwt] at hw
      injection hw with hw
      rw [← hw]
      exact format_path_false_getLast t (h h2 t rfl)
    | bool b => simp [asStr] at hw
    | int n => simp [asStr] at hw

/-- Witness for C7: instantiated at the never-slash key `MESSAGE_LOG` with
value `"a/"` (one trailing separator, so the side condition holds). -/
theorem c7_witness :
    (format_value "MESSAGE_LOG".toList (.str "a/".toList)).bind
        (format_value "MESSAGE_LOG".toList) =
      format_value "MESSAGE_LOG".toList (.str "a/".toList) :=
  c7_format_value_idempotent "MESSAGE_LOG".toList (.str "a/".toList)
    (by
      intro _ t ht
      injection ht with ht
      rw [← ht]
      decide)

/-! The debug module (`src/debug.py`) and claims C8, C9, C10. -/

/-- Translation of `Debug._LEVEL_COLOR` (debug.py lines 19-23): the ten
fixed level-to-color ANSI escape mappings. -/
def LEVEL_COLOR : List (Int × Str) :=
  [(1, "\x1b[0;30;41m".toList), (2, "\x1b[0;30;42m".toList), (3, "\x1b[0;30;43m".toList),
   (4, "\x1b[0;30;44m".toList), (5, "\x1b[0;30;45m".toList), (6, "\x1b[0;30;46m".toList),
   (7, "\x1b[0;30;41m".toList), (8, "\x1b[0;30;41m".toList), (9, "\x1b[0;30;42m".toList),
   (10, "\x1b[0;30;43m".toList)]

/-- Python `dict` lookup on the level-to-color table (`KeyError` = `none`). -/
def lookupLevel : Int → List (Int × Str) → Option Str
  | _, [] => none
  | l, (k, v) :: rest => if l = k then some v else lookupLevel l rest

/-- Translation of `Debug.debug_print` (debug.py lines 26-50).  `debug` is
the current `Debug.DEBUG` threshold.  The result is the list of lines
written to stdout (a bare `print()` is an empty line) together with `true`
when the call returned normally; `([], false)` models the `KeyError` raised
by `self._LEVEL_COLOR[level]` before anything is printed.  Note the source
prints the `Module:`/`Class:`/`Function:` label lines precisely when the
corresponding argument `is None` (so the printed label value is always
`None`). -/
def debug_print (debug level : Int) (message : Str)
    (module class_ function : Option Str) : List Str × Bool :=
  if level ≤ debug then
    match lookupLevel level LEVEL_COLOR with
    | none => ([], false)
    | some start =>
      ([[],
        start ++ "Debug level: ".toList ++ intToStr level ++ "\x1b[0m".toList]
       ++ (if module = none then
             [start ++ "Module: None".toList ++ "\x1b[0m".toList] else [])
       ++ (if class_ = none then
             [start ++ "Class: None".toList ++ "\x1b[0m".toList] else [])
       ++ (if function = none then
             [start ++ "Function: None".toList ++ "\x1b[0m".toList] else [])
       ++ [start ++ message ++ "\x1b[0m".toList, []], true)
  else ([], true)

theorem lookupLevel_none (level : Int) (h : ¬(1 ≤ level ∧ level ≤ 10)) :
    lookupLevel level LEVEL_COLOR = none := by
  simp only [LEVEL_COLOR, lookupLevel]
  repeat rw [if_neg (by omega)]

theorem lookupLevel_some (level : Int) (h : 1 ≤ level ∧ level ≤ 10) :
    ∃ st, lookupLevel level LEVEL_COLOR = some st := by
  obtain ⟨h1, h2⟩ := h
  interval_cases level <;> exact ⟨_, rfl⟩

/-- C8: a call to `debug_print` with level 0 or any level outside the ten
fixed level-to-color mappings prints nothing, regardless of the current
threshold (outside the gate nothing happens; inside it, the color lookup
raises `KeyError` before the first `print`). -/
theorem c8_unmapped_level_prints_nothing (debug level : Int) (message : Str)
    (module class_ function : Option Str) (h : ¬(1 ≤ level ∧ level ≤ 10)) :
    (debug_print debug level message module class_ function).1 = [] := by
  unfold debug_print
  by_cases hD : level ≤ debug
  · rw [if_pos hD, lookupLevel_none level h]
  · rw [if_neg hD]

/-- Witness for C8: level 0 under threshold 5 prints nothing. -/
theorem c8_witness :
    (debug_print 5 0 "msg".toList none none none).1 = [] :=
  c8_unmapped_level_prints_nothing 5 0 "msg".toList none none none (by decide)

/-- C9 counterexample: with threshold `DEBUG = 11` and level 11 (between 1
and the threshold), `debug_print` prints nothing: the claim that output is
emitted for every level from 1 up to the threshold fails because the color
table only covers levels 1-10 (a `KeyError` is raised instead). -/
theorem c9_counterexample :
    (1 : Int) ≤ 11 ∧ (11 : Int) ≤ 11 ∧
    (debug_print 11 11 "msg".toList none none none) = ([], false) := by
  refine ⟨by decide, by decide, ?_⟩
  decide

/-- C9 (amended): no output is emitted when the message level strictly
exceeds the threshold `DEBUG`; output is emitted for every level from 1 up
to the threshold provided the level is also within the mapped range 1-10
(beyond 10 the color lookup raises `KeyError` and nothing is printed). -/
theorem c9_threshold_gating (debug level : Int) (message : Str)
    (module class_ function : Option Str) :
    (debug < level →
       (debug_print debug level message module class_ function).1 = []) ∧
    (1 ≤ level → level ≤ debug → level ≤ 10 →
       (debug_print debug level message module class_ function).1 ≠ []) := by
  constructor
  · intro hgt
    unfold debug_print
    rw [if_neg (by omega)]
  · intro h1 hle h10
    obtain ⟨st, hst⟩ := lookupLevel_some level ⟨h1, h10⟩
    unfold debug_print
    rw [if_pos hle, hst]
    simp

/-- Witness for C9 (amended): threshold 3, level 2 emits output; threshold
3, level 4 emits nothing. -/
theorem c9_witness :
    (debug_print 3 4 "msg".toList none none none).1 = [] ∧
    (debug_print 3 2 "msg".toList none none none).1 ≠ [] :=
  ⟨(c9_threshold_gating 3 4 "msg".toList none none none).1 (by decide),
   (c9_threshold_gating 3 2 "msg".toList none none none).2 (by decide) (by decide) (by decide)⟩

/-- C10: when `debug_print` emits output, the `Module:`/`Class:`/`Function:`
label lines appear exactly for the arguments that are `None` (printing the
fixed text `None`); a caller-supplied non-`None` label value never appears:
the output for non-`None` arguments is independent of the supplied values,
and each `None` argument contributes exactly one extra line. -/
theorem c10_label_lines_only_for_none (debug level : Int) (message : Str)
    (st : Str) (hD : level ≤ debug)
    (hst : lookupLevel level LEVEL_COLOR = some st) :
    (∀ mv cv fv : Str,
       (debug_print debug level message (some mv) (some cv) (some fv)).1 =
         [[], st ++ "Debug level: ".toList ++ intToStr level ++ "\x1b[0m".toList,
          st ++ message ++ "\x1b[0m".toList, []]) ∧
    ((debug_print debug level message none none none).1 =
         [[], st ++ "Debug level: ".toList ++ intToStr level ++ "\x1b[0m".toList,
          st ++ "Module: None".toList ++ "\x1b[0m".toList,
          st ++ "Class: None".toList ++ "\x1b[0m".toList,
          st ++ "Function: None".toList ++ "\x1b[0m".toList,
          st ++ message ++ "\x1b[0m".toList, []]) ∧
    (∀ module class_ function : Option Str,
       (debug_print debug level message module class_ function).1.length =
         4 + (if module = none then 1 else 0) + (if class_ = none then 1 else 0)
           + (if function = none then 1 else 0)) := by
  refine ⟨?_, ?_, ?_⟩
  · intro mv cv fv
    unfold debug_print
    rw [if_pos hD, hst]
    simp
  · unfold debug_print
    rw [if_pos hD, hst]
    simp
  · intro module class_ function
    unfold debug_print
    rw [if_pos hD, hst]
    cases module <;> cases class_ <;> cases function <;> simp

/-- Witness for C10: instantiated at threshold 2, level 1. -/
theorem c10_witness :
    (debug_print 2 1 "msg".toList (some "m".toList) (some "c".toList)
        (some "f".toList)).1 =
      [[], "\x1b[0;30;41m".toList ++ "Debug level: ".toList ++ intToStr 1 ++ "\x1b[0m".toList,
       "\x1b[0;30;41m".toList ++ "msg".toList ++ "\x1b[0m".toList, []] :=
  ((c10_label_lines_only_for_none 2 1 "msg".toList "\x1b[0;30;41m".toList
      (by decide) (by decide)).1) "m".toList "c".toList "f".toList

/-! File-level model of the settings store (`src/settings.py`): the
YAML scalar dialect of the spec (top-level scalar mapping), loading,
comment extraction and the writer pipeline. -/

/-- Plain-scalar words the YAML 1.1 resolver reads as boolean true. -/
def YAML_TRUE_WORDS : List Str :=
  ["yes".toList, "Yes".toList, "YES".toList, "true".toList, "True".toList,
   "TRUE".toList, "on".toList, "On".toList, "ON".toList]

/-- Plain-scalar words the YAML 1.1 resolver reads as boolean false. -/
def YAML_FALSE_WORDS : List Str :=
  ["no".toList, "No".toList, "NO".toList, "false".toList, "False".toList,
   "FALSE".toList, "off".toList, "Off".toList, "OFF".toList]

/-- Plain-scalar words the YAML 1.1 resolver reads as null. -/
def YAML_NULL_WORDS : List Str :=
  ["~".toList, "null".toList, "Null".toList, "NULL".toList]

/-- Nonempty run of digits and underscores containing at least one digit
(the digit-part shape of YAML 1.1 integers). -/
def digitsUnd (l : Str) : Bool :=
  !l.isEmpty && l.all (fun c => c.isDigit || c == '_') && l.any Char.isDigit

/-- Texts the YAML 1.1 resolver may read as an integer (conservative:
optional sign then digits/underscores; includes octal-style leading
zeros). -/
def intLike : Str → Bool
  | [] => false
  | c :: rest => if c = '-' || c = '+' then digitsUnd rest else digitsUnd (c :: rest)

/-- Texts the YAML 1.1 resolver may read as a float (conservative
over-approximation: optional sign, digits with a dot or exponent letter). -/
def floatLike : Str → Bool
  | [] => false
  | c :: rest =>
    let body := if c = '-' || c = '+' then rest else c :: rest
    !body.isEmpty &&
      body.all (fun d => d.isDigit || d == '.' || d == '_' || d == 'e' || d == 'E'
                  || d == '+' || d == '-') &&
      body.any Char.isDigit &&
      body.any (fun d => d == '.' || d == 'e' || d == 'E')

/-- Does PyYAML need to quote this string to keep it a string?  A
conservative model of the plain-style resolver check: quote when the plain
form is empty, a boolean/null word, int-like or float-like, starts with a
quote, or has leading/trailing whitespace. -/
def needs_quote (t : Str) : Bool :=
  decide (t = []) || decide (t ∈ YAML_TRUE_WORDS) || decide (t ∈ YAML_FALSE_WORDS) ||
  decide (t ∈ YAML_NULL_WORDS) || intLike t || floatLike t ||
  decide (t.head? = some '\'') ||
  (t.head?.elim false Char.isWhitespace) || (t.getLast?.elim false Char.isWhitespace)

/-- Wrap a scalar text in single quotes. -/
def quoteStr (t : Str) : Str := '\'' :: (t ++ ['\''])

/-- Models the scalar rendering of `yaml.dump(..., default_flow_style=False,
indent=4)` on the scalar domain: `true`/`false` for booleans, canonical
decimal for integers, plain strings unless `needs_quote`. -/
def dump_scalar : Scalar → Str
  | .bool true => "true".toList
  | .bool false => "false".toList
  | .int n => intToStr n
  | .str t => if needs_quote t then quoteStr t else t

/-- Models the scalar resolution of `yaml.load` on one value text:
single-quoted texts are strings, boolean words booleans, canonical decimal
integers integers, everything else a plain string. -/
def parse_value_text (t : Str) : Scalar :=
  if 2 ≤ t.length ∧ t.head? = some '\'' ∧ t.getLast? = some '\'' then
    .str ((t.drop 1).dropLast)
  else if t ∈ YAML_TRUE_WORDS then .bool true
  else if t ∈ YAML_FALSE_WORDS then .bool false
  else match canonInt t with
    | some n => .int n
    | none => .str t

/-- Classification of one line of the settings file by the modelled YAML
loader: blank and comment lines are skipped, a line with a colon is a
key/value line (key = text before the first colon, value = trimmed rest),
anything else is a parse error. -/
inductive LineClass where
  | skip
  | bad
  | kv (k : Str) (v : Scalar)

/-- Classify one line (see `LineClass`). -/
def classify_line (l : Str) : LineClass :=
  if l = [] then .skip
  else if l.head? = some '#' then .skip
  else
    let k := l.takeWhile (fun c => c ≠ ':')
    if k.length = l.length then .bad
    else .kv k (parse_value_text (pyTrim (l.drop (k.length + 1))))

/-- Parse the lines of a settings file into key/value-text pairs in file
order (`none` = `yaml.load` fails). -/
def parse_file : List Str → Option (List (Str × Scalar))
  | [] => some []
  | l :: rest =>
    match classify_line l with
    | .skip => parse_file rest
    | .bad => none
    | .kv k v => (parse_file rest).map (fun ps => (k, v) :: ps)

/-- Python `dict` insertion: overwrite in place, else append. -/
def dictInsert {α : Type} (d : List (Str × α)) (k : Str) (v : α) : List (Str × α) :=
  match d with
  | [] => [(k, v)]
  | (k0, v0) :: rest => if k0 = k then (k0, v) :: rest else (k0, v0) :: dictInsert rest k v

/-- Build the Python `dict` of a pair list in iteration order. -/
def build_dict {α : Type} (ps : List (Str × α)) : List (Str × α) :=
  ps.foldl (fun d kv => dictInsert d kv.1 kv.2) []

/-- Apply `format_value` to every entry, propagating a raised exception. -/
def formatAll : List (Str × Scalar) → Option (List (Str × Scalar))
  | [] => some []
  | (k, v) :: rest =>
    match format_value k v, formatAll rest with
    | some w, some r => some ((k, w) :: r)
    | _, _ => none

/-- Translation of the value pipeline of `Settings.load_settings_from_yaml`
(settings.py lines 54-70) on the lines of the config file: `yaml.load`
(mapping dialect, duplicate keys overwrite) then `_format_value` on every
entry.  An empty document makes `constants.items()` raise (`yaml.load`
returns `None`), hence `none`. -/
def load_lines (lines : List Str) : Option (List (Str × Scalar)) :=
  match parse_file lines with
  | none => none
  | some [] => none
  | some ps => formatAll (build_dict ps)

/-- Text before the first colon of a line, `none` when the line has no
colon (helper for the lazy regex `(.+?):.*`). -/
def splitAtColon : Str → Option Str
  | [] => none
  | c :: rest => if c = ':' then some [] else (splitAtColon rest).map (fun pre => c :: pre)

/-- Models `re.match('(.+?):.*', line).group(1)`: the (nonempty) text
before the first colon that is preceded by at least one character;
`none` when the regex does not match (newlines cannot be matched by `.`). -/
def keyOfLazy (l : Str) : Option Str :=
  match l with
  | [] => none
  | c0 :: rest =>
    (splitAtColon rest).bind (fun pre =>
      if '\n' ∈ c0 :: pre then none else some (c0 :: pre))

/-- Loop body of the comment scan of `Settings.write_settings_to_file`
(settings.py lines 196-204): collect consecutive `#`-lines (stripped,
marker retained); when the next line is not a comment it must parse as
`key: ...` (else `AttributeError`, `none`) and the block is stored for that
key; a comment on the last line indexes past the end (`IndexError`,
`none`). -/
def extract_comments_go :
    List Str → List Str → List (Str × List Str) → Option (List (Str × List Str))
  | [], _, acc => some acc
  | l :: rest, comment, acc =>
    if l.head? = some '#' then
      match rest.head? with
      | none => none
      | some nxt =>
        if nxt.head? = some '#' then extract_comments_go rest (comment ++ [pyTrim l]) acc
        else match keyOfLazy nxt with
          | none => none
          | some p => extract_comments_go rest [] (dictInsert acc p (comment ++ [pyTrim l]))
    else extract_comments_go rest comment acc

/-- Comment extraction of `Settings.write_settings_to_file`:
key-to-comment-block associations in first-association order. -/
def extract_comments (lines : List Str) : Option (List (Str × List Str)) :=
  extract_comments_go lines [] []

/-- Models `re.match('\\A(\\S+):.*\\Z', line).group(1)`: greedy nonspace
run, backtracking to the last colon inside it with a nonempty group;
`\\Z` fails when the line contains a newline. -/
def topLevelParam (l : Str) : Option Str :=
  if '\n' ∈ l then none
  else
    match (l.takeWhile (fun c => ¬ c.isWhitespace)).reverse.findIdx? (fun c => c = ':') with
    | none => none
    | some i =>
      let run := l.takeWhile (fun c => ¬ c.isWhitespace)
      if 1 ≤ run.length - 1 - i then some (run.take (run.length - 1 - i)) else none

/-- First-match association lookup (Python `dict` access). -/
def alookup {α : Type} (k : Str) : List (Str × α) → Option α
  | [] => none
  | (k0, v) :: rest => if k0 = k then some v else alookup k rest

/-- Remove a key (Python `del dict[k]`). -/
def aerase {α : Type} (k : Str) : List (Str × α) → List (Str × α)
  | [] => []
  | (k0, v) :: rest => if k0 = k then rest else (k0, v) :: aerase k rest

/-- Comment re-injection loop of `Settings.write_settings_to_file`
(settings.py lines 213-229): before every dumped line matching the
top-level-parameter regex, insert one blank line, then that key's stored
comment block if any (consuming it). -/
def insert_comments : List Str → List (Str × List Str) → List Str
  | [], _ => []
  | l :: rest, pc =>
    match topLevelParam l with
    | none => l :: insert_comments rest pc
    | some p =>
      match alookup p pc with
      | some cs => ([] : Str) :: (cs ++ l :: insert_comments rest (aerase p pc))
      | none => ([] : Str) :: l :: insert_comments rest pc

/-- Lexicographic string order by code point (Python `str` comparison,
used by `yaml.dump`'s key sorting). -/
def strLeB : Str → Str → Bool
  | a :: arest, b :: brest =>
    if a.val < b.val then true
    else if b.val < a.val then false
    else strLeB arest brest
  | [], _ => true
  | _, _ => false

/-- Key-sorted entries (PyYAML dumps `dict`s with sorted keys). -/
def sortKeys (m : List (Str × Scalar)) : List (Str × Scalar) :=
  List.insertionSort (fun x y => strLeB x.1 y.1 = true) m

/-- One dumped mapping line `key: value`. -/
def dump_line (k : Str) (v : Scalar) : Str := k ++ ':' :: ' ' :: dump_scalar v

/-- All dumped mapping lines (block style, sorted keys, scalar values). -/
def dump_lines (m : List (Str × Scalar)) : List Str :=
  (sortKeys m).map (fun kv => dump_line kv.1 kv.2)

/-- Models `'\n'.join(settings_list)[1:]` followed by re-reading the written
file as lines: dropping the first character of the joined text removes a
leading blank line entirely, otherwise it maims the first line. -/
def join_drop_first : List Str → List Str
  | [] => []
  | [] :: rest => rest
  | (_ :: cs) :: rest => cs :: rest

/-- Translation of the content pipeline of `Settings.write_settings_to_file`
(settings.py lines 173-234): extract the old file's comments, format every
entry of the mapping, dump the sorted mapping, re-inject comments, join and
drop the first character.  `none` models an exception raised before the
temporary file is written. -/
def write_settings_lines (oldLines : List Str) (m : List (Str × Scalar)) :
    Option (List Str) :=
  match extract_comments oldLines with
  | none => none
  | some pc =>
    match formatAll m with
    | some m2 => some (join_drop_first (insert_comments (dump_lines m2) pc))
    | none => none

/-! Claim C4: the comment extractor of the settings writer. -/

/-- An input shape for the comment extractor: one top-level key line
preceded by a (possibly empty) contiguous block of comment lines. -/
structure CommentBlock where
  comments : List Str
  key : Str
  rest : Str

/-- Render one block to file lines: the comment lines, then `key:<rest>`. -/
def renderBlock (b : CommentBlock) : List Str :=
  b.comments ++ [b.key ++ ':' :: b.rest]

/-- Render a whole file of comment blocks. -/
def renderBlocks (bs : List CommentBlock) : List Str :=
  (bs.map renderBlock).flatten

theorem splitAtColon_spec (ks restText : Str) (h : ':' ∉ ks) :
    splitAtColon (ks ++ ':' :: restText) = some ks := by
  induction ks with
  | nil => simp [splitAtColon]
  | cons c cs ih =>
    have hc : ¬ c = ':' := fun hcc => h (hcc ▸ List.mem_cons_self c cs)
    have hcs : ':' ∉ cs := fun hmem => h (List.mem_cons_of_mem c hmem)
    simp only [List.cons_append, splitAtColon, if_neg hc, List.append_eq, ih hcs,
      Option.map_some']

theorem keyOfLazy_keyline (key restText : Str) (hne : key ≠ [])
    (hcolon : ':' ∉ key) (hnl : '\n' ∉ key) :
    keyOfLazy (key ++ ':' :: restText) = some key := by
  cases key with
  | nil => exact absurd rfl hne
  | cons c0 ks =>
    have hcolon' : ':' ∉ ks := fun hmem => hcolon (List.mem_cons_of_mem c0 hmem)
    simp only [List.cons_append, keyOfLazy, List.append_eq,
      splitAtColon_spec ks restText hcolon', Option.some_bind]
    rw [if_neg hnl]

theorem head?_key_append (key : Str) (tail : Str) (hne : key ≠ []) :
    (key ++ tail).head? = key.head? := by
  cases key with
  | nil => exact absurd rfl hne
  | cons c cs => rfl

theorem dictInsert_append {α : Type} (acc : List (Str × α)) (k : Str) (v : α)
    (h : k ∉ acc.map Prod.fst) : dictInsert acc k v = acc ++ [(k, v)] := by
  induction acc with
  | nil => rfl
  | cons p rest ih =>
    obtain ⟨k0, v0⟩ := p
    simp only [List.map_cons, List.mem_cons] at h
    push_neg at h
    simp only [dictInsert]
    rw [if_neg (fun hc => h.1 hc.symm), ih h.2]
    rfl

theorem extract_go_skip (l : Str) (rest : List Str) (buf : List Str)
    (acc : List (Str × List Str)) (h : l.head? ≠ some '#') :
    extract_comments_go (l :: rest) buf acc = extract_comments_go rest buf acc := by
  rw [extract_comments_go, if_neg h]

theorem extract_go_comment_run (comments : List Str) (keyline : Str)
    (rest : List Str) (buf : List Str) (acc : List (Str × List Str)) (key : Str)
    (hc : ∀ l ∈ comments, l.head? = some '#') (hne : comments ≠ [])
    (hkh : keyline.head? ≠ some '#') (hkey : keyOfLazy keyline = some key) :
    extract_comments_go (comments ++ keyline :: rest) buf acc =
      extract_comments_go (keyline :: rest) []
        (dictInsert acc key (buf ++ comments.map pyTrim)) := by
  induction comments generalizing buf with
  | nil => exact absurd rfl hne
  | cons c cs ih =>
    have hch : c.head? = some '#' := hc c (List.mem_cons_self _ _)
    cases cs with
    | nil =>
      rw [List.cons_append, List.nil_append, extract_comments_go, if_pos hch]
      simp only [List.head?_cons, hkh, hkey]
      simp [List.map]
    | cons c2 cs2 =>
      have hc2h : c2.head? = some '#' :=
        hc c2 (List.mem_cons_of_mem _ (List.mem_cons_self _ _))
      rw [List.cons_append, extract_comments_go, if_pos hch]
      simp only [List.cons_append, List.head?_cons, hc2h]
      simp only [if_true]
      rw [← List.cons_append c2 cs2 (keyline :: rest)]
      rw [ih (buf ++ [pyTrim c]) (fun l hl => hc l (List.mem_cons_of_mem _ hl)) (by simp)]
      simp [List.append_assoc]

/-- Well-formed comment block: comment lines carry the marker, the key is
nonempty, colon- and newline-free, and does not look like a comment. -/
def wfBlock (b : CommentBlock) : Prop :=
  (∀ l ∈ b.comments, l.head? = some '#') ∧
  b.key ≠ [] ∧ ':' ∉ b.key ∧ '\n' ∉ b.key ∧ b.key.head? ≠ some '#'

instance (b : CommentBlock) : Decidable (wfBlock b) := by
  unfold wfBlock
  infer_instance

theorem extract_go_blocks (bs : List CommentBlock) (acc : List (Str × List Str))
    (hwf : ∀ b ∈ bs, wfBlock b)
    (hnd : (bs.map CommentBlock.key).Nodup)
    (hacc : ∀ b ∈ bs, b.key ∉ acc.map Prod.fst) :
    extract_comments_go (renderBlocks bs) [] acc =
      some (acc ++ (bs.filter (fun b => !b.comments.isEmpty)).map
              (fun b => (b.key, b.comments.map pyTrim))) := by
  induction bs generalizing acc with
  | nil => simp [renderBlocks, extract_comments_go]
  | cons b rest ih =>
    simp only [List.map_cons, List.nodup_cons] at hnd
    obtain ⟨hndk, hndr⟩ := hnd
    obtain ⟨hbc, hbk1, hbk2, hbk3, hbk4⟩ := hwf b (List.mem_cons_self _ _)
    have hkeyline : keyOfLazy (b.key ++ ':' :: b.rest) = some b.key :=
      keyOfLazy_keyline b.key b.rest hbk1 hbk2 hbk3
    have hkh : (b.key ++ ':' :: b.rest).head? ≠ some '#' := by
      rw [head?_key_append b.key _ hbk1]
      exact hbk4
    have hrender : renderBlocks (b :: rest) =
        b.comments ++ (b.key ++ ':' :: b.rest) :: renderBlocks rest := by
      simp [renderBlocks, renderBlock, List.append_assoc]
    cases hce : b.comments.isEmpty with
    | true =>
      have hcnil : b.comments = [] := List.isEmpty_iff.mp hce
      rw [hrender, hcnil, List.nil_append,
          extract_go_skip _ _ _ _ hkh,
          ih acc (fun x hx => hwf x (List.mem_cons_of_mem _ hx)) hndr
             (fun x hx => hacc x (List.mem_cons_of_mem _ hx))]
      simp [List.filter_cons, hcnil]
    | false =>
      have hcne : b.comments ≠ [] := by
        intro hc
        rw [hc] at hce
        simp at hce
      rw [hrender,
          extract_go_comment_run b.comments _ _ [] acc b.key hbc hcne hkh hkeyline,
          extract_go_skip _ _ _ _ hkh]
      rw [dictInsert_append acc b.key _ (hacc b (List.mem_cons_self _ _))]
      simp only [List.nil_append]
      rw [ih (acc ++ [(b.key, List.map pyTrim b.comments)])
             (fun x hx => hwf x (List.mem_cons_of_mem _ hx)) hndr ?hacc2]
      case hacc2 =>
        intro x hx
        simp only [List.map_append, List.map_cons]
        intro hmem
        rcases List.mem_append.mp hmem with hmem | hmem
        · exact hacc x (List.mem_cons_of_mem _ hx) hmem
        · have hxb : x.key = b.key := by simpa using hmem
          have : b.key ∈ rest.map CommentBlock.key := by
            rw [← hxb]
            exact List.mem_map_of_mem _ hx
          exact hndk this
      simp [List.filter_cons, hce, List.append_assoc]

/-- C4 counterexample: the writer's comment extractor does not strip the
comment marker (the stored line for `b` is `"# note"`, not `"note"`), and a
key with no immediately preceding comment (`a` in the file `a: 1`) is
absent from the result rather than mapped to an empty list. -/
theorem c4_counterexample :
    extract_comments ["# note".toList, "b: 1".toList] =
      some [("b".toList, ["# note".toList])] ∧
    "# note".toList ≠ "note".toList ∧
    extract_comments ["a: 1".toList] = some [] := by
  refine ⟨by decide, by decide, by decide⟩

/-- C4 (amended): on a file of top-level keys each preceded by a contiguous
(possibly empty) comment block, extraction returns exactly one association
per key whose block is nonempty, in file order, containing exactly the
whitespace-stripped comment lines immediately above that key with the
marker character retained; keys with empty blocks are absent. -/
theorem c4_comment_extractor_contract (bs : List CommentBlock)
    (hwf : ∀ b ∈ bs, wfBlock b)
    (hnd : (bs.map CommentBlock.key).Nodup) :
    extract_comments (renderBlocks bs) =
      some ((bs.filter (fun b => !b.comments.isEmpty)).map
              (fun b => (b.key, b.comments.map pyTrim))) := by
  unfold extract_comments
  rw [extract_go_blocks bs [] hwf hnd (by simp)]
  simp

/-- Witness for C4 (amended): two keys, one with a comment block and one
without; the extraction returns exactly the one association, marker kept. -/
theorem c4_witness :
    extract_comments
        (renderBlocks [⟨["# note".toList], "b".toList, " 1".toList⟩,
                       ⟨[], "a".toList, " 2".toList⟩]) =
      some [("b".toList, ["# note".toList])] := by
  rw [c4_comment_extractor_contract _ (by decide) (by decide)]
  decide

/-! Claim C2: load-failure atomicity, and Claim C3: atomic replace. -/

/-- The process-wide settings state of the `Settings` class:
`Settings.PROGRAM_PATH` plus the dynamically assigned setting attributes. -/
structure SettingsState where
  programPath : Option Str
  attrs : List (Str × Scalar)
deriving DecidableEq, Repr

/-- Failure kinds of `load_settings_from_yaml`. -/
inductive LoadError where
  | fileNotFound
  | parseError
  | emptyDoc
  | formatError
deriving DecidableEq, Repr

/-- The `setattr` loop of `load_settings_from_yaml` (settings.py lines
69-70): assign constants one at a time; a `_format_value` exception stops
the loop, keeping the attributes assigned so far. -/
def setattr_loop (st : SettingsState) :
    List (Str × Scalar) → SettingsState × Option LoadError
  | [] => (st, none)
  | (k, v) :: rest =>
    match format_value k v with
    | none => (st, some .formatError)
    | some w => setattr_loop { st with attrs := dictInsert st.attrs k w } rest

/-- Translation of `Settings.load_settings_from_yaml` (settings.py lines
54-70) as a transition on the process-wide state.  `progPath` is the value
of `os.path.dirname(os.path.abspath(__file__)) + '/'`; `file` is `none`
when the config file is missing at the resolved path.  Crucially, the
source assigns `Settings.PROGRAM_PATH` on line 64 before opening the file,
so the assignment happens even on the failing paths. -/
def load_settings_from_yaml (st : SettingsState) (progPath : Str)
    (file : Option (List Str)) : SettingsState × Option LoadError :=
  let st1 := { st with programPath := some progPath }
  match file with
  | none => (st1, some .fileNotFound)
  | some lines =>
    match parse_file lines with
    | none => (st1, some .parseError)
    | some [] => (st1, some .emptyDoc)
    | some ps => setattr_loop st1 (build_dict ps)

/-- C2 counterexample: on a fresh state, a failing load (missing file)
leaves the process-wide settings state modified: `PROGRAM_PATH` is assigned
before the file is opened, so the state after the failing call differs from
the state before it. -/
theorem c2_counterexample :
    (load_settings_from_yaml ⟨none, []⟩ "/opt/zipato/".toList none).2 =
        some .fileNotFound ∧
    (load_settings_from_yaml ⟨none, []⟩ "/opt/zipato/".toList none).1 ≠
        (⟨none, []⟩ : SettingsState) := by
  refine ⟨by decide, by decide⟩

/-- C2 (amended): if the config file is missing or does not parse, the load
fails with the `FileNotFound` resp. `ParseError` kind and no setting
attribute is modified, but `PROGRAM_PATH` is assigned (to the program
directory) before the failure, so it does not survive unmodified. -/
theorem c2_load_failure_atomicity (st : SettingsState) (progPath : Str)
    (file : Option (List Str))
    (h : file = none ∨ (∃ lines, file = some lines ∧ parse_file lines = none)) :
    (load_settings_from_yaml st progPath file).2 =
        some (if file = none then LoadError.fileNotFound else LoadError.parseError) ∧
    (load_settings_from_yaml st progPath file).1.attrs = st.attrs ∧
    (load_settings_from_yaml st progPath file).1.programPath = some progPath := by
  rcases h with h | ⟨lines, hf, hp⟩
  · subst h
    exact ⟨rfl, rfl, rfl⟩
  · subst hf
    unfold load_settings_from_yaml
    simp [hp]

/-- Witness for C2 (amended): a missing file and a file with an
unparseable line. -/
theorem c2_witness :
    ((load_settings_from_yaml ⟨none, []⟩ "/p/".toList none).2 =
        some LoadError.fileNotFound ∧
     (load_settings_from_yaml ⟨none, []⟩ "/p/".toList none).1.attrs = [] ∧
     (load_settings_from_yaml ⟨none, []⟩ "/p/".toList none).1.programPath =
        some "/p/".toList) ∧
    ((load_settings_from_yaml ⟨none, []⟩ "/p/".toList
          (some ["not yaml".toList])).2 = some LoadError.parseError ∧
     (load_settings_from_yaml ⟨none, []⟩ "/p/".toList
          (some ["not yaml".toList])).1.attrs = [] ∧
     (load_settings_from_yaml ⟨none, []⟩ "/p/".toList
          (some ["not yaml".toList])).1.programPath = some "/p/".toList) := by
  constructor
  · have h := c2_load_failure_atomicity ⟨none, []⟩ "/p/".toList none (Or.inl rfl)
    exact ⟨by rw [h.1]; decide, h.2.1, h.2.2⟩
  · have h := c2_load_failure_atomicity ⟨none, []⟩ "/p/".toList
        (some ["not yaml".toList]) (Or.inr ⟨_, rfl, by decide⟩)
    exact ⟨by rw [h.1]; decide, h.2.1, h.2.2⟩

/-- The file-system locations `write_settings_to_file` touches: the target
config file and the temporary sibling `config_file+'~'`. -/
structure FS where
  target : List Str
  temp : Option (List Str)
deriving DecidableEq, Repr

/-- Observable file-system states of one `write_settings_to_file` call
(settings.py lines 188-234), in order: the initial state (reading and all
pure computation), then the temporary sibling written with the complete new
content (lines 232-233), then the `os.rename` of the temporary file over
the target (line 234).  An exception before the temporary write truncates
the trace at the initial state. -/
def write_settings_trace (fs : FS) (m : List (Str × Scalar)) : List FS :=
  match extract_comments fs.target with
  | none => [fs]
  | some pc =>
    match formatAll m with
    | none => [fs]
    | some m2 =>
      let content := join_drop_first (insert_comments (dump_lines m2) pc)
      [fs,
       { fs with temp := some content },
       { target := content, temp := none }]

/-- C3: atomic replace.  Along the whole write, every observable state of
the target file is either the unchanged previous content or the complete
new content produced by the writer (never a partial file); if any step
before the rename fails, the target is unchanged in every state; and on
success the final state holds exactly the complete new content. -/
theorem c3_atomic_replace (fs : FS) (m : List (Str × Scalar)) :
    (∀ s ∈ write_settings_trace fs m,
       s.target = fs.target ∨ write_settings_lines fs.target m = some s.target) ∧
    (write_settings_lines fs.target m = none →
       ∀ s ∈ write_settings_trace fs m, s.target = fs.target) ∧
    (∀ out, write_settings_lines fs.target m = some out →
       (write_settings_trace fs m).getLast? =
         some { target := out, temp := none }) := by
  unfold write_settings_trace write_settings_lines
  cases hext : extract_comments fs.target with
  | none => simp
  | some pc =>
    cases hfmt : formatAll m with
    | none => simp
    | some m2 =>
      refine ⟨?_, ?_, ?_⟩
      · intro s hs
        simp only [List.mem_cons, List.not_mem_nil, or_false] at hs
        rcases hs with hs | hs | hs
        · left; rw [hs]
        · left; rw [hs]
        · right; rw [hs]
      · intro hnone
        simp at hnone
      · intro out hout
        simp only [Option.some.injEq] at hout
        simp [hout]

/-- Witness for C3: a concrete one-key file; the write succeeds and the
last trace state holds exactly the new content. -/
theorem c3_witness :
    (write_settings_trace ⟨["A: 1".toList], none⟩ [("A".toList, .int 1)]).getLast? =
      some ⟨["A: 1".toList], none⟩ :=
  (c3_atomic_replace ⟨["A: 1".toList], none⟩ [("A".toList, .int 1)]).2.2
    ["A: 1".toList] (by decide)


/-! Claim C1: round-trip.  Phase 1: the scalar dialect round-trips. -/

theorem intToStr_ne_word (n : Int) (c : Char) (cs : List Char)
    (h1 : ¬ c = '-') (h2 : c.isDigit = false) : intToStr n ≠ c :: cs := by
  intro h
  rcases intToStr_head_kind n c cs h with h' | h'
  · exact h1 h'
  · rw [h'] at h2
    cases h2

theorem intToStr_head_kind' (n : Int) : ∀ (c : Char) (cs : List Char),
    intToStr n = c :: cs → c = '-' ∨ c.isDigit = true := fun c cs h =>
  intToStr_chars n c (by rw [h]; simp)

theorem intToStr_notin_true_words (n : Int) : intToStr n ∉ YAML_TRUE_WORDS := by
  intro hmem
  simp only [YAML_TRUE_WORDS, List.mem_cons, List.not_mem_nil, or_false] at hmem
  rcases hmem with h|h|h|h|h|h|h|h|h
  · exact intToStr_ne_word n 'y' "es".toList (by decide) (by decide) h
  · exact intToStr_ne_word n 'Y' "es".toList (by decide) (by decide) h
  · exact intToStr_ne_word n 'Y' "ES".toList (by decide) (by decide) h
  · exact intToStr_ne_word n 't' "rue".toList (by decide) (by decide) h
  · exact intToStr_ne_word n 'T' "rue".toList (by decide) (by decide) h
  · exact intToStr_ne_word n 'T' "RUE".toList (by decide) (by decide) h
  · exact intToStr_ne_word n 'o' "n".toList (by decide) (by decide) h
  · exact intToStr_ne_word n 'O' "n".toList (by decide) (by decide) h
  · exact intToStr_ne_word n 'O' "N".toList (by decide) (by decide) h

theorem intToStr_notin_false_words (n : Int) : intToStr n ∉ YAML_FALSE_WORDS := by
  intro hmem
  simp only [YAML_FALSE_WORDS, List.mem_cons, List.not_mem_nil, or_false] at hmem
  rcases hmem with h|h|h|h|h|h|h|h|h
  · exact intToStr_ne_word n 'n' "o".toList (by decide) (by decide) h
  · exact intToStr_ne_word n 'N' "o".toList (by decide) (by decide) h
  · exact intToStr_ne_word n 'N' "O".toList (by decide) (by decide) h
  · exact intToStr_ne_word n 'f' "alse".toList (by decide) (by decide) h
  · exact intToStr_ne_word n 'F' "alse".toList (by decide) (by decide) h
  · exact intToStr_ne_word n 'F' "ALSE".toList (by decide) (by decide) h
  · exact intToStr_ne_word n 'o' "ff".toList (by decide) (by decide) h
  · exact intToStr_ne_word n 'O' "ff".toList (by decide) (by decide) h
  · exact intToStr_ne_word n 'O' "FF".toList (by decide) (by decide) h

theorem intToStr_head_ne_quote (n : Int) : (intToStr n).head? ≠ some '\'' := by
  intro h
  obtain ⟨c, cs, hcons⟩ : ∃ c cs, intToStr n = c :: cs := by
    cases hc : intToStr n with
    | nil =>
      unfold intToStr at hc
      split at hc
      · cases hc
      · exact absurd hc (natToDigits_ne_nil _)
    | cons c cs => exact ⟨c, cs, rfl⟩
  rw [hcons] at h
  simp at h
  subst h
  rcases intToStr_head_kind n _ _ hcons with h' | h' <;> revert h' <;> decide

theorem parse_dump_int (n : Int) : parse_value_text (intToStr n) = .int n := by
  unfold parse_value_text
  rw [if_neg (fun hc => intToStr_head_ne_quote n hc.2.1),
      if_neg (intToStr_notin_true_words n),
      if_neg (intToStr_notin_false_words n),
      canonInt_intToStr]


theorem digitsUnd_of_all (l : List Char) (hne : l ≠ [])
    (hall : l.all Char.isDigit = true) : digitsUnd l = true := by
  unfold digitsUnd
  rw [Bool.and_eq_true, Bool.and_eq_true]
  refine ⟨⟨?_, ?_⟩, ?_⟩
  · cases l with
    | nil => exact absurd rfl hne
    | cons c cs => simp
  · rw [List.all_eq_true] at hall ⊢
    intro c hc
    simp [hall c hc]
  · cases l with
    | nil => exact absurd rfl hne
    | cons c cs =>
      simp only [List.any_cons, Bool.or_eq_true]
      left
      simpa using (List.all_eq_true.mp hall) c (List.mem_cons_self _ _)

theorem strictIntParse_some_intLike (t : Str) (n : Int)
    (h : strictIntParse t = some n) : intLike t = true := by
  cases t with
  | nil => cases h
  | cons c rest =>
    rw [strictIntParse] at h
    by_cases hc : c = '-'
    · rw [if_pos hc] at h
      subst hc
      split at h
      next hcond =>
        obtain ⟨hne, hall⟩ := hcond
        simp only [intLike]
        rw [if_pos (by simp)]
        exact digitsUnd_of_all rest hne hall
      next => cases h
    · rw [if_neg hc] at h
      split at h
      next hcond =>
        have hcd : c.isDigit = true := by
          simpa using (List.all_eq_true.mp hcond) c (List.mem_cons_self _ _)
        have hcp : ¬ c = '+' := by
          intro hcc
          rw [hcc] at hcd
          cases hcd
        simp only [intLike]
        rw [if_neg (by simp [hc, hcp])]
        exact digitsUnd_of_all (c :: rest) (by simp) hcond
      next => cases h

theorem canonInt_none_of_not_intLike (t : Str) (h : intLike t = false) :
    canonInt t = none := by
  unfold canonInt
  cases hs : strictIntParse t with
  | none => rfl
  | some n =>
    rw [strictIntParse_some_intLike t n hs] at h
    cases h

theorem needs_quote_false_parts (t : Str) (h : needs_quote t = false) :
    t ≠ [] ∧ t ∉ YAML_TRUE_WORDS ∧ t ∉ YAML_FALSE_WORDS ∧ t ∉ YAML_NULL_WORDS ∧
    intLike t = false ∧ floatLike t = false ∧ t.head? ≠ some '\'' ∧
    t.head?.elim false Char.isWhitespace = false ∧
    t.getLast?.elim false Char.isWhitespace = false := by
  unfold needs_quote at h
  simp only [Bool.or_eq_false_iff, decide_eq_false_iff_not] at h
  obtain ⟨⟨⟨⟨⟨⟨⟨⟨h1, h2⟩, h3⟩, h4⟩, h5⟩, h6⟩, h7⟩, h8⟩, h9⟩ := h
  exact ⟨h1, h2, h3, h4, h5, h6, h7, h8, h9⟩

theorem parse_dump_str_plain (t : Str) (h : needs_quote t = false) :
    parse_value_text t = .str t := by
  obtain ⟨h1, h2, h3, h4, h5, h6, h7, h8, h9⟩ := needs_quote_false_parts t h
  unfold parse_value_text
  rw [if_neg (fun hc => h7 hc.2.1), if_neg h2, if_neg h3,
      canonInt_none_of_not_intLike t h5]

theorem parse_dump_str_quoted (t : Str) :
    parse_value_text (quoteStr t) = .str t := by
  unfold parse_value_text quoteStr
  rw [if_pos ?hq]
  case hq =>
    refine ⟨?_, rfl, ?_⟩
    · simp
    · rw [show ('\'' :: (t ++ ['\''])) = ('\'' :: t) ++ ['\''] from by simp]
      exact List.getLast?_concat _
  simp [List.dropLast_concat]

theorem parse_dump_id (v : Scalar) : parse_value_text (dump_scalar v) = v := by
  cases v with
  | bool b => cases b <;> decide
  | int n => exact parse_dump_int n
  | str t =>
    simp only [dump_scalar]
    cases hq : needs_quote t with
    | false =>
      rw [if_neg (by simp [hq])]
      exact parse_dump_str_plain t hq
    | true =>
      rw [if_pos (by simp [hq])]
      exact parse_dump_str_quoted t

/-! Claim C1: round-trip of load and write. -/

/-- Key well-formedness needed for the written file to read back: nonempty,
not comment-like, and free of whitespace, colons and newlines. -/
def wfKey (k : Str) : Prop :=
  k ≠ [] ∧ k.head? ≠ some '#' ∧ ∀ c ∈ k, ¬c.isWhitespace ∧ c ≠ ':' ∧ c ≠ '\n'

instance (k : Str) : Decidable (wfKey k) := by
  unfold wfKey
  infer_instance

theorem takeWhile_key (k : Str) (rest : Str) (h : ∀ c ∈ k, c ≠ ':') :
    (k ++ ':' :: rest).takeWhile (fun c => c ≠ ':') = k := by
  induction k with
  | nil => simp [List.takeWhile]
  | cons c cs ih =>
    have hc : c ≠ ':' := (h c (List.mem_cons_self _ _))
    simp only [List.cons_append, List.takeWhile_cons]
    rw [if_pos (by simpa using hc), ih (fun d hd => h d (List.mem_cons_of_mem _ hd))]

theorem pyTrimEnd_eq_self_of_last (l : Str)
    (h : ∀ c, l.getLast? = some c → ¬ c.isWhitespace) : pyTrimEnd l = l := by
  induction l with
  | nil => rfl
  | cons c rest ih =>
    cases rest with
    | nil =>
      have := h c rfl
      simp [pyTrimEnd, this]
    | cons d ds =>
      have hr : pyTrimEnd (d :: ds) = d :: ds :=
        ih (fun x hx => h x (by rwa [List.getLast?_cons_cons]))
      rw [pyTrimEnd, hr]

theorem intToStr_cons (n : Int) : ∃ c cs, intToStr n = c :: cs := by
  cases hi : intToStr n with
  | nil =>
    unfold intToStr at hi
    split at hi
    · cases hi
    · exact absurd hi (natToDigits_ne_nil _)
  | cons c cs => exact ⟨c, cs, rfl⟩

theorem dump_scalar_ne_nil (v : Scalar) : dump_scalar v ≠ [] := by
  cases v with
  | bool b => cases b <;> decide
  | int n =>
    simp only [dump_scalar]
    obtain ⟨c, cs, hcons⟩ := intToStr_cons n
    simp [hcons]
  | str t =>
    simp only [dump_scalar]
    split
    · simp [quoteStr]
    · next hq =>
      exact (needs_quote_false_parts t (by simpa using hq)).1

theorem dump_scalar_head_not_ws (v : Scalar) :
    ∀ c, (dump_scalar v).head? = some c → ¬ c.isWhitespace := by
  cases v with
  | bool b =>
    cases b <;> intro c hc
    · have h2 : (dump_scalar (Scalar.bool false)).head? = some 'f' := by decide
      rw [hc] at h2
      injection h2 with h2
      subst h2
      decide
    · have h2 : (dump_scalar (Scalar.bool true)).head? = some 't' := by decide
      rw [hc] at h2
      injection h2 with h2
      subst h2
      decide
  | int n =>
    intro c hc
    simp only [dump_scalar] at hc
    exact intToStr_no_ws n c (List.mem_of_mem_head? (by rw [hc]; simp))
  | str t =>
    intro c hc
    simp only [dump_scalar] at hc
    split at hc
    · simp only [quoteStr, List.head?_cons, Option.some.injEq] at hc
      subst hc
      decide
    · next hq =>
      have h8 := (needs_quote_false_parts t (by simpa using hq)).2.2.2.2.2.2.2.1
      rw [hc] at h8
      simpa using h8

theorem dump_scalar_last_not_ws (v : Scalar) :
    ∀ c, (dump_scalar v).getLast? = some c → ¬ c.isWhitespace := by
  cases v with
  | bool b =>
    cases b <;> intro c hc
    · have h2 : (dump_scalar (Scalar.bool false)).getLast? = some 'e' := by decide
      rw [hc] at h2
      injection h2 with h2
      subst h2
      decide
    · have h2 : (dump_scalar (Scalar.bool true)).getLast? = some 'e' := by decide
      rw [hc] at h2
      injection h2 with h2
      subst h2
      decide
  | int n =>
    intro c hc
    simp only [dump_scalar] at hc
    have hmem : c ∈ intToStr n := by
      obtain ⟨c0, cs, hcons⟩ := intToStr_cons n
      rw [hcons] at hc ⊢
      exact List.mem_of_mem_getLast? (by rw [hc]; simp)
    exact intToStr_no_ws n c hmem
  | str t =>
    intro c hc
    simp only [dump_scalar] at hc
    split at hc
    · rw [show quoteStr t = ('\'' :: t) ++ ['\''] from by simp [quoteStr],
          List.getLast?_concat] at hc
      injection hc with hc
      subst hc
      decide
    · next hq =>
      have h9 := (needs_quote_false_parts t (by simpa using hq)).2.2.2.2.2.2.2.2
      rw [hc] at h9
      simpa using h9

theorem dropWhile_ws_dump (v : Scalar) :
    (dump_scalar v).dropWhile Char.isWhitespace = dump_scalar v := by
  obtain ⟨c, cs, hcons⟩ := List.exists_cons_of_ne_nil (dump_scalar_ne_nil v)
  rw [hcons, List.dropWhile_cons, if_neg]
  simpa using dump_scalar_head_not_ws v c (by rw [hcons]; rfl)

theorem pyTrim_space_dump (v : Scalar) :
    pyTrim (' ' :: dump_scalar v) = dump_scalar v := by
  unfold pyTrim
  rw [List.dropWhile_cons, if_pos (by decide), dropWhile_ws_dump]
  exact pyTrimEnd_eq_self_of_last _ (dump_scalar_last_not_ws v)

theorem classify_dump_line (k : Str) (v : Scalar) (hk : wfKey k) :
    classify_line (dump_line k v) = .kv k (parse_value_text (dump_scalar v)) := by
  obtain ⟨h1, h2, h3⟩ := hk
  unfold classify_line dump_line
  rw [if_neg (by simp [h1]), if_neg (by rw [head?_key_append k _ h1]; exact h2)]
  rw [takeWhile_key k _ (fun c hc => (h3 c hc).2.1)]
  rw [if_neg (by simp)]
  have hdrop : (k ++ ':' :: ' ' :: dump_scalar v).drop (k.length + 1) =
      ' ' :: dump_scalar v := by
    have hlen : (k ++ [':']).length = k.length + 1 := by simp
    rw [show k ++ ':' :: ' ' :: dump_scalar v = (k ++ [':']) ++ ' ' :: dump_scalar v
          from by simp, ← hlen, List.drop_left]
  rw [hdrop, pyTrim_space_dump]

theorem classify_skip_comment (l : Str) (h : l.head? = some '#') :
    classify_line l = .skip := by
  unfold classify_line
  by_cases hn : l = []
  · rw [if_pos hn]
  · rw [if_neg hn, if_pos h]

theorem parse_file_cons_skip (l : Str) (rest : List Str)
    (h : classify_line l = .skip) : parse_file (l :: rest) = parse_file rest := by
  rw [parse_file, h]

theorem parse_file_cons_kv (l : Str) (rest : List Str) (k : Str) (v : Scalar)
    (h : classify_line l = .kv k v) :
    parse_file (l :: rest) = (parse_file rest).map (fun ps => (k, v) :: ps) := by
  rw [parse_file, h]

theorem parse_file_append_skips (cs : List Str) (rest : List Str)
    (h : ∀ l ∈ cs, classify_line l = .skip) :
    parse_file (cs ++ rest) = parse_file rest := by
  induction cs with
  | nil => rfl
  | cons c cs2 ih =>
    rw [List.cons_append, parse_file_cons_skip c _ (h c (List.mem_cons_self _ _)),
        ih (fun l hl => h l (List.mem_cons_of_mem _ hl))]

theorem parse_file_congr_tail (l : Str) {A B : List Str}
    (h : parse_file A = parse_file B) : parse_file (l :: A) = parse_file (l :: B) := by
  cases hcl : classify_line l with
  | skip => rw [parse_file_cons_skip _ _ hcl, parse_file_cons_skip _ _ hcl, h]
  | bad => rw [parse_file, hcl, parse_file, hcl]
  | kv k v => rw [parse_file_cons_kv _ _ _ _ hcl, parse_file_cons_kv _ _ _ _ hcl, h]

theorem alookup_mem {α : Type} (k : Str) (d : List (Str × α)) (v : α)
    (h : alookup k d = some v) : (k, v) ∈ d := by
  induction d with
  | nil => cases h
  | cons p rest ih =>
    obtain ⟨k0, v0⟩ := p
    rw [alookup] at h
    split at h
    · next heq =>
      injection h with h
      subst h
      subst heq
      exact List.mem_cons_self _ _
    · exact List.mem_cons_of_mem _ (ih h)

theorem mem_aerase {α : Type} (k : Str) (d : List (Str × α)) (x : Str × α)
    (h : x ∈ aerase k d) : x ∈ d := by
  induction d with
  | nil => cases h
  | cons p rest ih =>
    rw [aerase] at h
    split at h
    · exact List.mem_cons_of_mem _ h
    · rcases List.mem_cons.mp h with h | h
      · exact h ▸ List.mem_cons_self _ _
      · exact List.mem_cons_of_mem _ (ih h)

theorem parse_insert (ds : List Str) (pc : List (Str × List Str))
    (hpc : ∀ p cs, (p, cs) ∈ pc → ∀ c ∈ cs, c.head? = some '#') :
    parse_file (insert_comments ds pc) = parse_file ds := by
  induction ds generalizing pc with
  | nil => rfl
  | cons l rest ih =>
    cases htl : topLevelParam l with
    | none =>
      simp only [insert_comments, htl]
      exact parse_file_congr_tail l (ih pc hpc)
    | some p =>
      cases hal : alookup p pc with
      | none =>
        simp only [insert_comments, htl, hal]
        rw [parse_file_cons_skip [] _ rfl]
        exact parse_file_congr_tail l (ih pc hpc)
      | some cs =>
        simp only [insert_comments, htl, hal]
        rw [parse_file_cons_skip [] _ rfl,
            parse_file_append_skips cs _
              (fun c hc => classify_skip_comment c (hpc p cs (alookup_mem p pc cs hal) c hc))]
        exact parse_file_congr_tail l
          (ih (aerase p pc) (fun q qs hq => hpc q qs (mem_aerase p pc _ hq)))

theorem pyTrim_hash (l : Str) (h : l.head? = some '#') :
    (pyTrim l).head? = some '#' := by
  cases l with
  | nil => cases h
  | cons c r =>
    simp only [List.head?_cons, Option.some.injEq] at h
    subst h
    unfold pyTrim
    rw [List.dropWhile_cons, if_neg (by decide)]
    rw [pyTrimEnd]
    cases pyTrimEnd r <;> simp

theorem mem_dictInsert {α : Type} (d : List (Str × α)) (k : Str) (v : α)
    (x : Str × α) (h : x ∈ dictInsert d k v) : x = (k, v) ∨ x ∈ d := by
  induction d with
  | nil =>
    rw [dictInsert] at h
    rcases List.mem_singleton.mp h with h
    exact Or.inl h
  | cons p rest ih =>
    obtain ⟨k0, v0⟩ := p
    rw [dictInsert] at h
    split at h
    · next heq =>
      subst heq
      rcases List.mem_cons.mp h with h | h
      · exact Or.inl h
      · exact Or.inr (List.mem_cons_of_mem _ h)
    · rcases List.mem_cons.mp h with h | h
      · exact Or.inr (h ▸ List.mem_cons_self _ _)
      · rcases ih h with h | h
        · exact Or.inl h
        · exact Or.inr (List.mem_cons_of_mem _ h)

theorem extract_go_sound (lines : List Str) :
    ∀ (buf : List Str) (acc pc : List (Str × List Str)),
    (∀ c ∈ buf, c.head? = some '#') →
    (∀ p cs, (p, cs) ∈ acc → ∀ c ∈ cs, c.head? = some '#') →
    extract_comments_go lines buf acc = some pc →
    ∀ p cs, (p, cs) ∈ pc → ∀ c ∈ cs, c.head? = some '#' := by
  induction lines with
  | nil =>
    intro buf acc pc _ hacc h
    rw [extract_comments_go] at h
    injection h with h
    subst h
    exact hacc
  | cons l rest ih =>
    intro buf acc pc hbuf hacc h
    rw [extract_comments_go] at h
    split at h
    · next hl =>
      cases hrh : rest.head? with
      | none => simp only [hrh] at h; cases h
      | some nxt =>
        simp only [hrh] at h
        split at h
        · exact ih (buf ++ [pyTrim l]) acc pc
            (by
              intro c hc
              rcases List.mem_append.mp hc with hc | hc
              · exact hbuf c hc
              · rw [List.mem_singleton.mp hc]
                exact pyTrim_hash l hl)
            hacc h
        · cases hko : keyOfLazy nxt with
          | none => simp only [hko] at h; cases h
          | some p =>
            simp only [hko] at h
            exact ih [] _ pc (by simp)
              (by
                intro q qs hq c hc
                rcases mem_dictInsert acc p _ _ hq with hq | hq
                · injection hq with hq1 hq2
                  subst hq2
                  rcases List.mem_append.mp hc with hc | hc
                  · exact hbuf c hc
                  · rw [List.mem_singleton.mp hc]
                    exact pyTrim_hash l hl
                · exact hacc q qs hq c hc)
              h
    · exact ih buf acc pc hbuf hacc h

theorem extract_comments_sound (lines : List Str) (pc : List (Str × List Str))
    (h : extract_comments lines = some pc) :
    ∀ p cs, (p, cs) ∈ pc → ∀ c ∈ cs, c.head? = some '#' :=
  extract_go_sound lines [] [] pc (by simp) (by simp) h

theorem takeWhile_append_all {p : Char → Bool} (k rest : Str)
    (h : ∀ c ∈ k, p c = true) :
    (k ++ rest).takeWhile p = k ++ rest.takeWhile p := by
  induction k with
  | nil => rfl
  | cons c cs ih =>
    simp only [List.cons_append, List.takeWhile_cons,
      if_pos (h c (List.mem_cons_self _ _)), ih (fun d hd => h d (List.mem_cons_of_mem _ hd))]

theorem topLevelParam_dump (k : Str) (v : Scalar) (hk : wfKey k)
    (hnl : '\n' ∉ dump_scalar v) : topLevelParam (dump_line k v) = some k := by
  obtain ⟨h1, h2, h3⟩ := hk
  unfold topLevelParam dump_line
  rw [if_neg ?hn]
  case hn =>
    intro hmem
    rcases List.mem_append.mp hmem with hmem | hmem
    · exact (h3 _ hmem).2.2 rfl
    · rcases List.mem_cons.mp hmem with hmem | hmem
      · cases hmem
      · rcases List.mem_cons.mp hmem with hmem | hmem
        · cases hmem
        · exact hnl hmem
  have hrun : (k ++ ':' :: ' ' :: dump_scalar v).takeWhile
      (fun c => ¬ c.isWhitespace) = k ++ [':'] := by
    rw [takeWhile_append_all k _ (fun c hc => by simp [(h3 c hc).1])]
    simp [List.takeWhile_cons]
  rw [hrun]
  rw [List.reverse_append]
  simp only [List.reverse_cons, List.reverse_nil, List.nil_append, List.singleton_append]
  rw [List.findIdx?_cons]
  rw [if_pos (by simp)]
  simp only [List.length_append, List.length_cons, List.length_nil]
  rw [if_pos (by
    have : k.length ≠ 0 := fun hc => h1 (List.length_eq_zero.mp hc)
    omega)]
  congr 1
  have harith : k.length + (0 + 1) - 1 - 0 = k.length := by omega
  rw [harith, List.take_left]

theorem parse_file_dump (ms : List (Str × Scalar)) (hk : ∀ kv ∈ ms, wfKey kv.1) :
    parse_file (ms.map (fun kv => dump_line kv.1 kv.2)) = some ms := by
  induction ms with
  | nil => rfl
  | cons kv rest ih =>
    rw [List.map_cons,
        parse_file_cons_kv _ _ _ _ (classify_dump_line kv.1 kv.2 (hk kv (List.mem_cons_self _ _))),
        ih (fun x hx => hk x (List.mem_cons_of_mem _ hx))]
    simp [parse_dump_id, Prod.mk.eta]

theorem parse_join_drop (d0 : Str) (ds : List Str) (pc : List (Str × List Str))
    (p : Str) (h : topLevelParam d0 = some p) :
    parse_file (join_drop_first (insert_comments (d0 :: ds) pc)) =
      parse_file (insert_comments (d0 :: ds) pc) := by
  cases hal : alookup p pc with
  | none =>
    simp only [insert_comments, h, hal]
    rw [join_drop_first, parse_file_cons_skip [] _ rfl]
  | some cs =>
    simp only [insert_comments, h, hal]
    rw [join_drop_first, parse_file_cons_skip [] _ rfl]

theorem dictInsert_keys {α : Type} (d : List (Str × α)) (k : Str) (v : α) :
    (dictInsert d k v).map Prod.fst =
      if k ∈ d.map Prod.fst then d.map Prod.fst else d.map Prod.fst ++ [k] := by
  induction d with
  | nil =>
    rw [show dictInsert ([] : List (Str × α)) k v = [(k, v)] from rfl, List.map_nil,
        if_neg (List.not_mem_nil k)]
    rfl
  | cons p rest ih =>
    obtain ⟨k0, v0⟩ := p
    rw [dictInsert]
    by_cases hk : k0 = k
    · subst hk
      rw [if_pos rfl]
      simp only [List.map_cons]
      rw [if_pos (List.mem_cons_self _ _)]
    · rw [if_neg hk]
      simp only [List.map_cons, List.mem_cons]
      rw [ih]
      by_cases hmem : k ∈ rest.map Prod.fst
      · rw [if_pos hmem, if_pos (Or.inr hmem)]
      · rw [if_neg hmem, if_neg (by
          intro hc
          rcases hc with hc | hc
          · exact hk hc.symm
          · exact hmem hc)]
        simp

theorem dictInsert_keys_nodup {α : Type} (d : List (Str × α)) (k : Str) (v : α)
    (h : (d.map Prod.fst).Nodup) : ((dictInsert d k v).map Prod.fst).Nodup := by
  rw [dictInsert_keys]
  by_cases hmem : k ∈ d.map Prod.fst
  · rw [if_pos hmem]; exact h
  · rw [if_neg hmem]
    simp [List.nodup_append, h, hmem]

theorem dictInsert_ne_nil {α : Type} (d : List (Str × α)) (k : Str) (v : α) :
    dictInsert d k v ≠ [] := by
  cases d with
  | nil => exact fun h => List.noConfusion h
  | cons p rest =>
    obtain ⟨k0, v0⟩ := p
    rw [dictInsert]
    split <;> exact fun h => List.noConfusion h

theorem build_dict_go_nodup {α : Type} (ps : List (Str × α)) :
    ∀ acc : List (Str × α), (acc.map Prod.fst).Nodup →
      ((ps.foldl (fun d kv => dictInsert d kv.1 kv.2) acc).map Prod.fst).Nodup := by
  induction ps with
  | nil => intro acc h; exact h
  | cons p rest ih =>
    intro acc h
    rw [List.foldl_cons]
    exact ih _ (dictInsert_keys_nodup acc p.1 p.2 h)

theorem build_dict_nodup {α : Type} (ps : List (Str × α)) :
    ((build_dict ps).map Prod.fst).Nodup :=
  build_dict_go_nodup ps [] (by simp)

theorem build_dict_go_ne_nil {α : Type} (ps : List (Str × α)) :
    ∀ acc : List (Str × α), acc ≠ [] →
      ps.foldl (fun d kv => dictInsert d kv.1 kv.2) acc ≠ [] := by
  induction ps with
  | nil => intro acc h; exact h
  | cons p rest ih =>
    intro acc h
    rw [List.foldl_cons]
    exact ih _ (dictInsert_ne_nil acc p.1 p.2)

theorem build_dict_ne_nil {α : Type} (ps : List (Str × α)) (h : ps ≠ []) :
    build_dict ps ≠ [] := by
  cases ps with
  | nil => exact absurd rfl h
  | cons p rest =>
    unfold build_dict
    rw [List.foldl_cons]
    exact build_dict_go_ne_nil rest _ (dictInsert_ne_nil [] p.1 p.2)

theorem build_dict_go_append {α : Type} (ps : List (Str × α)) :
    ∀ acc : List (Str × α),
      (∀ kv ∈ ps, kv.1 ∉ acc.map Prod.fst) → (ps.map Prod.fst).Nodup →
      ps.foldl (fun d kv => dictInsert d kv.1 kv.2) acc = acc ++ ps := by
  induction ps with
  | nil => intro acc _ _; simp
  | cons p rest ih =>
    intro acc hdisj hnd
    simp only [List.map_cons, List.nodup_cons] at hnd
    rw [List.foldl_cons,
        dictInsert_append acc p.1 p.2 (hdisj p (List.mem_cons_self _ _)),
        ih (acc ++ [(p.1, p.2)])
          (by
            intro kv hkv
            simp only [List.map_append, List.map_cons, List.map_nil]
            intro hc
            rcases List.mem_append.mp hc with hc | hc
            · exact hdisj kv (List.mem_cons_of_mem _ hkv) hc
            · have : kv.1 = p.1 := by simpa using hc
              exact hnd.1 (this ▸ List.mem_map_of_mem Prod.fst hkv))
          hnd.2]
    simp

theorem build_dict_eq_self {α : Type} (ps : List (Str × α))
    (h : (ps.map Prod.fst).Nodup) : build_dict ps = ps := by
  unfold build_dict
  rw [build_dict_go_append ps [] (by simp) h]
  simp

theorem formatAll_keys (l l' : List (Str × Scalar)) (h : formatAll l = some l') :
    l'.map Prod.fst = l.map Prod.fst := by
  induction l generalizing l' with
  | nil =>
    rw [formatAll] at h
    injection h with h
    subst h
    rfl
  | cons kv rest ih =>
    obtain ⟨k, v⟩ := kv
    rw [formatAll] at h
    cases hf : format_value k v with
    | none => rw [hf] at h; cases h
    | some w =>
      rw [hf] at h
      cases hr : formatAll rest with
      | none => rw [hr] at h; cases h
      | some r =>
        rw [hr] at h
        injection h with h
        subst h
        simp [ih r hr]

theorem formatAll_mem (l l' : List (Str × Scalar)) (h : formatAll l = some l')
    (kv : Str × Scalar) (hm : kv ∈ l') :
    ∃ v0, (kv.1, v0) ∈ l ∧ format_value kv.1 v0 = some kv.2 := by
  induction l generalizing l' with
  | nil =>
    rw [formatAll] at h
    injection h with h
    subst h
    cases hm
  | cons p rest ih =>
    obtain ⟨k, v⟩ := p
    rw [formatAll] at h
    cases hf : format_value k v with
    | none => rw [hf] at h; cases h
    | some w =>
      rw [hf] at h
      cases hr : formatAll rest with
      | none => rw [hr] at h; cases h
      | some r =>
        rw [hr] at h
        injection h with h
        subst h
        rcases List.mem_cons.mp hm with hm | hm
        · subst hm
          exact ⟨v, List.mem_cons_self _ _, hf⟩
        · obtain ⟨v0, hv0, hfv⟩ := ih r hr hm
          exact ⟨v0, List.mem_cons_of_mem _ hv0, hfv⟩

theorem formatAll_of_fix (l : List (Str × Scalar))
    (h : ∀ kv ∈ l, format_value kv.1 kv.2 = some kv.2) : formatAll l = some l := by
  induction l with
  | nil => rfl
  | cons kv rest ih =>
    obtain ⟨k, v⟩ := kv
    rw [formatAll, h (k, v) (List.mem_cons_self _ _),
        ih (fun x hx => h x (List.mem_cons_of_mem _ hx))]

theorem alookup_perm {α : Type} : ∀ {l1 l2 : List (Str × α)}, l1.Perm l2 →
    (l1.map Prod.fst).Nodup → ∀ k, alookup k l1 = alookup k l2 := by
  intro l1 l2 hp
  induction hp with
  | nil => intro _ _; rfl
  | cons x hp ih =>
    intro hnd k
    obtain ⟨k0, v0⟩ := x
    rw [alookup, alookup]
    split
    · rfl
    · simp only [List.map_cons, List.nodup_cons] at hnd
      exact ih hnd.2 k
  | swap x y l =>
    intro hnd k
    obtain ⟨kx, vx⟩ := x
    obtain ⟨ky, vy⟩ := y
    simp only [List.map_cons, List.nodup_cons, List.mem_cons] at hnd
    push_neg at hnd
    have hxy : ky ≠ kx := hnd.1.1
    have hxk : kx ≠ ky := fun hc => hxy hc.symm
    rw [alookup, alookup, alookup, alookup]
    by_cases h1 : ky = k
    · subst h1
      simp [hxk]
    · by_cases h2 : kx = k
      · subst h2
        simp [h1]
      · simp [h1, h2]
  | trans hp1 hp2 ih1 ih2 =>
    intro hnd k
    rw [ih1 hnd k, ih2 (((hp1.map Prod.fst).nodup_iff).mp hnd) k]

theorem dump_scalar_no_newline (v : Scalar)
    (h : ∀ t, v = .str t → '\n' ∉ t) : '\n' ∉ dump_scalar v := by
  cases v with
  | bool b => cases b <;> decide
  | int n =>
    intro hc
    simp only [dump_scalar] at hc
    rcases intToStr_chars n '\n' hc with h' | h'
    · cases h'
    · cases h'
  | str t =>
    simp only [dump_scalar]
    split
    · intro hc
      simp only [quoteStr, List.mem_cons, List.mem_append, List.mem_singleton] at hc
      rcases hc with hc | hc | hc | hc
      · cases hc
      · exact h t rfl hc
      · cases hc
      · cases hc
    · exact h t rfl

theorem load_lines_facts (lines : List Str) (m : List (Str × Scalar))
    (h : load_lines lines = some m) :
    m ≠ [] ∧ (m.map Prod.fst).Nodup ∧
    ∀ kv ∈ m, ∃ v0, format_value kv.1 v0 = some kv.2 := by
  unfold load_lines at h
  cases hp : parse_file lines with
  | none => simp only [hp] at h; cases h
  | some ps =>
    simp only [hp] at h
    cases ps with
    | nil => simp at h
    | cons p ps2 =>
      have hkeys : m.map Prod.fst = (build_dict (p :: ps2)).map Prod.fst :=
        formatAll_keys _ m h
      refine ⟨?_, ?_, ?_⟩
      · intro hc
        subst hc
        have hbne := build_dict_ne_nil (p :: ps2) (by simp)
        have : (build_dict (p :: ps2)).map Prod.fst = [] := hkeys.symm
        exact hbne (List.map_eq_nil_iff.mp this)
      · rw [hkeys]
        exact build_dict_nodup _
      · intro kv hkv
        obtain ⟨v0, _, hfv⟩ := formatAll_mem _ m h kv hkv
        exact ⟨v0, hfv⟩

theorem load_fix (lines : List Str) (m : List (Str × Scalar))
    (hl : load_lines lines = some m)
    (hslash : ∀ k t, (k, Scalar.str t) ∈ m → k ∈ PATH_WITHOUT_SLASH_PARAMETERS →
       t.getLast? ≠ some '/') :
    ∀ kv ∈ m, format_value kv.1 kv.2 = some kv.2 := by
  intro kv hm
  obtain ⟨v0, hfv⟩ := (load_lines_facts lines m hl).2.2 kv hm
  apply format_value_fix kv.1 v0 kv.2 hfv
  intro h2 t ht
  apply hslash kv.1 t ?_ h2
  rw [← ht]
  simpa using hm

/-- C1 (amended): round-trip.  For a settings file that loads successfully
to a mapping `m` with well-formed keys, newline-free string values, and no
never-slash path value ending in a separator, a successful
`write_settings_to_file` produces a file whose reload yields the key-sorted
mapping, equal to `m` under every key lookup.  (The separator condition is
forced by the counterexample `MESSAGE_LOG: a//`: `_format_path` strips one
trailing separator per call, so writing re-formats the loaded value.) -/
theorem c1_roundtrip (lines out : List Str) (m : List (Str × Scalar))
    (hl : load_lines lines = some m)
    (hkeys : ∀ kv ∈ m, wfKey kv.1)
    (hvals : ∀ k t, (k, Scalar.str t) ∈ m → '\n' ∉ t)
    (hslash : ∀ k t, (k, Scalar.str t) ∈ m → k ∈ PATH_WITHOUT_SLASH_PARAMETERS →
       t.getLast? ≠ some '/')
    (hw : write_settings_lines lines m = some out) :
    load_lines out = some (sortKeys m) ∧
    ∀ k, alookup k (sortKeys m) = alookup k m := by
  obtain ⟨hne, hnd, _⟩ := load_lines_facts lines m hl
  have hfix := load_fix lines m hl hslash
  unfold write_settings_lines at hw
  cases hext : extract_comments lines with
  | none => simp only [hext] at hw; cases hw
  | some pc =>
    simp only [hext, formatAll_of_fix m hfix] at hw
    injection hw with hw
    have hperm : (sortKeys m).Perm m := List.perm_insertionSort _ m
    have hpermk : ((sortKeys m).map Prod.fst).Perm (m.map Prod.fst) :=
      hperm.map _
    have hndS : ((sortKeys m).map Prod.fst).Nodup := (hpermk.nodup_iff).mpr hnd
    have hkeysS : ∀ kv ∈ sortKeys m, wfKey kv.1 :=
      fun kv hkv => hkeys kv (hperm.mem_iff.mp hkv)
    have hfixS : ∀ kv ∈ sortKeys m, format_value kv.1 kv.2 = some kv.2 :=
      fun kv hkv => hfix kv (hperm.mem_iff.mp hkv)
    obtain ⟨s0, srest, hS⟩ : ∃ s0 srest, sortKeys m = s0 :: srest := by
      cases hsk : sortKeys m with
      | nil => exact absurd (List.Perm.eq_nil ((hsk ▸ hperm) : ([] : List (Str × Scalar)).Perm m).symm) hne
      | cons s0 srest => exact ⟨s0, srest, rfl⟩
    have hdl : dump_lines m =
        dump_line s0.1 s0.2 :: srest.map (fun kv => dump_line kv.1 kv.2) := by
      unfold dump_lines sortKeys
      rw [show List.insertionSort (fun x y => strLeB x.1 y.1 = true) m = sortKeys m
            from rfl, hS]
      rfl
    have hs0mem : s0 ∈ m := hperm.mem_iff.mp (hS ▸ List.mem_cons_self s0 srest)
    have htop : topLevelParam (dump_line s0.1 s0.2) = some s0.1 :=
      topLevelParam_dump s0.1 s0.2
        (hkeysS s0 (by rw [hS]; exact List.mem_cons_self _ _))
        (dump_scalar_no_newline s0.2
          (fun t ht => hvals s0.1 t (by rw [← ht]; simpa using hs0mem)))
    have hpout : parse_file out = some (sortKeys m) := by
      rw [← hw, hdl, parse_join_drop _ _ pc s0.1 htop,
          parse_insert _ pc (extract_comments_sound lines pc hext), ← hdl]
      exact parse_file_dump (sortKeys m) hkeysS
    constructor
    · unfold load_lines
      simp only [hpout, hS]
      rw [← hS, build_dict_eq_self _ hndS, formatAll_of_fix _ hfixS]
    · exact fun k => alookup_perm hperm hndS k

/-- C1 counterexample: round-trip fails on the settings file
`MESSAGE_LOG: a//`.  Loading yields the value `a/` (one separator is
stripped); writing that mapping back re-formats the value to `a`, so the
second load differs from the first at the key `MESSAGE_LOG`. -/
theorem c1_counterexample :
    load_lines ["MESSAGE_LOG: a//".toList] =
      some [("MESSAGE_LOG".toList, Scalar.str "a/".toList)] ∧
    write_settings_lines ["MESSAGE_LOG: a//".toList]
        [("MESSAGE_LOG".toList, Scalar.str "a/".toList)] =
      some ["MESSAGE_LOG: a".toList] ∧
    load_lines ["MESSAGE_LOG: a".toList] =
      some [("MESSAGE_LOG".toList, Scalar.str "a".toList)] ∧
    alookup "MESSAGE_LOG".toList [("MESSAGE_LOG".toList, Scalar.str "a".toList)] ≠
      alookup "MESSAGE_LOG".toList [("MESSAGE_LOG".toList, Scalar.str "a/".toList)] := by
  refine ⟨by decide, by decide, by decide, by decide⟩

/-- Witness for C1 (amended): the file `# c` / `A: 5` loads, writes back to
itself, and the reload agrees with the original mapping. -/
theorem c1_witness :
    load_lines ["# c".toList, "A: 5".toList] =
      some (sortKeys [("A".toList, Scalar.int 5)]) ∧
    alookup "A".toList (sortKeys [("A".toList, Scalar.int 5)]) =
      alookup "A".toList [("A".toList, Scalar.int 5)] := by
  have h := c1_roundtrip ["# c".toList, "A: 5".toList] ["# c".toList, "A: 5".toList]
      [("A".toList, Scalar.int 5)]
      (by decide) (by decide)
      (by intro k t hkt; simp at hkt)
      (by intro k t hkt; simp at hkt)
      (by decide)
  exact ⟨h.1, h.2 "A".toList⟩

end Zipato
